import Mathlib

/-!
Verification of the UF-Course-Assistant crawling/aggregation core
(`scrapers/reddit_flair_scraper.py` and `scrapers/run_reddit_scrapes.py`)
against its natural-language specification.

The Python code is shallowly embedded: JSON dicts become insertion-ordered
association lists (Python 3.7+ dicts preserve insertion order), the network
and the scraper subprocess become explicit outcome oracles, `while` loops
become fuel-indexed recursion, and `datetime.date` becomes an explicit
calendar-date type with faithful day arithmetic.
-/

set_option autoImplicit false
set_option maxRecDepth 100000

namespace UFCA

/-! ## Association lists: the model of Python dicts

A Python dict is modelled as a `List (String × α)` with insertion order
preserved.  `upsertA` models `d[k] = v`: if the key is present the value is
replaced in place (order kept), otherwise the pair is appended at the end.
`lookupA` models `d.get(k)` and `containsKey` models `k in d`. -/

def keysOf {α : Type} (m : List (String × α)) : List String :=
  m.map Prod.fst

def containsKey {α : Type} (m : List (String × α)) (k : String) : Bool :=
  m.any (fun q => q.1 = k)

def lookupA {α : Type} (m : List (String × α)) (k : String) : Option α :=
  (m.find? (fun q => q.1 = k)).map Prod.snd

def upsertA {α : Type} (m : List (String × α)) (k : String) (v : α) :
    List (String × α) :=
  if containsKey m k then
    m.map (fun q => if q.1 = k then (k, v) else q)
  else
    m ++ [(k, v)]

theorem containsKey_iff {α : Type} (m : List (String × α)) (k : String) :
    containsKey m k = true ↔ ∃ q ∈ m, q.1 = k := by
  simp [containsKey]

theorem keysOf_upsertA {α : Type} (m : List (String × α)) (k : String) (v : α) :
    keysOf (upsertA m k v) =
      if containsKey m k then keysOf m else keysOf m ++ [k] := by
  unfold upsertA
  split
  · simp only [keysOf, List.map_map, if_true]
    apply List.map_congr_left
    intro q _
    by_cases h : q.1 = k <;> simp [h]
  · simp [keysOf]

theorem containsKey_upsertA_of {α : Type} (m : List (String × α)) (k j : String)
    (v : α) (h : containsKey m j = true) :
    containsKey (upsertA m k v) j = true := by
  rcases containsKey_iff m j |>.mp h with ⟨q, hq, hqj⟩
  unfold upsertA
  split
  · apply (containsKey_iff _ _).mpr
    by_cases hk : q.1 = k
    · exact ⟨(k, v), List.mem_map.mpr ⟨q, hq, by simp [hk]⟩, by rw [← hqj, hk]⟩
    · exact ⟨q, List.mem_map.mpr ⟨q, hq, by simp [hk]⟩, hqj⟩
  · exact (containsKey_iff _ _).mpr ⟨q, List.mem_append_left _ hq, hqj⟩

theorem containsKey_upsertA_self {α : Type} (m : List (String × α)) (k : String)
    (v : α) : containsKey (upsertA m k v) k = true := by
  unfold upsertA
  by_cases h : containsKey m k
  · rcases containsKey_iff m k |>.mp h with ⟨q, hq, hqk⟩
    rw [if_pos h]
    exact (containsKey_iff _ _).mpr
      ⟨(k, v), List.mem_map.mpr ⟨q, hq, by simp [hqk]⟩, rfl⟩
  · rw [if_neg h]
    exact (containsKey_iff _ _).mpr ⟨(k, v), List.mem_append_right _ (by simp), rfl⟩

theorem mem_upsertA_of_ne {α : Type} (m : List (String × α)) (k j : String)
    (v w : α) (hmem : (j, w) ∈ upsertA m k v) (hne : j ≠ k) : (j, w) ∈ m := by
  unfold upsertA at hmem
  split at hmem
  · rcases List.mem_map.mp hmem with ⟨q, hq, heq⟩
    by_cases h : q.1 = k
    · rw [if_pos h] at heq
      cases heq
      exact absurd rfl hne
    · rw [if_neg h] at heq
      rwa [heq] at hq
  · rcases List.mem_append.mp hmem with h | h
    · exact h
    · simp at h
      exact absurd h.1 hne

theorem mem_upsertA_self_val {α : Type} (m : List (String × α)) (k : String)
    (v w : α) (hmem : (k, w) ∈ upsertA m k v) : w = v := by
  unfold upsertA at hmem
  split at hmem
  · rcases List.mem_map.mp hmem with ⟨q, hq, heq⟩
    by_cases h : q.1 = k
    · rw [if_pos h] at heq
      cases heq
      rfl
    · rw [if_neg h] at heq
      exact absurd (congrArg Prod.fst heq) (by simpa using h)
  · rename_i hcon
    rcases List.mem_append.mp hmem with h | h
    · exact absurd ((containsKey_iff m k).mpr ⟨(k, w), h, rfl⟩) hcon
    · simp at h
      exact h

/-! ## Data model of crawled items -/

/-- A node of a parsed comment tree: the dict built by `parse_comment`
(`id`, `author`, `body`, `score`, `created_utc`, `replies`).  Fields come
from `d.get(...)`, hence each is optional. -/
inductive Reply where
  | mk (cid author body : Option String) (score created_utc : Option Int)
      (children : List Reply)

def Reply.children : Reply → List Reply
  | .mk _ _ _ _ _ c => c

/-- The raw upstream post payload `p = c["data"]` as used by `scrape_posts`:
exactly the fields the scraper reads. -/
structure RawPost where
  pid : String
  name : String
  title : String
  selftext : String
  author : String
  created_utc : Nat
  score : Int
  num_comments : Nat
  link_flair_text : Option String
  permalink : String
  url : String
deriving DecidableEq, Repr

/-- The post record built by `scrape_posts` (lines 130–144): a renaming of the
raw fields plus `comments` (initially `None`) and the raw payload itself. -/
structure Post where
  pid : String
  name : String
  title : String
  selftext : String
  author : String
  created_utc : Nat
  score : Int
  num_comments : Nat
  flair : Option String
  permalink : String
  url : String
  comments : Option (List Reply)
  raw : RawPost

def buildPost (p : RawPost) : Post :=
  { pid := p.pid, name := p.name, title := p.title, selftext := p.selftext,
    author := p.author, created_utc := p.created_utc, score := p.score,
    num_comments := p.num_comments, flair := p.link_flair_text,
    permalink := p.permalink, url := p.url, comments := none, raw := p }

/-! ## Master merge store (`merge_into_master`, lines 162–180)

`master["posts"][post["id"]] = post` over all new posts, then
`meta["last_updated"]` is set to the current wall-clock time and
`meta["total_posts"]` is recomputed from the resulting map. -/

structure Master where
  posts : List (String × Post)
  created : String
  last_updated : Option String
  total_posts : Option Nat

/-- `for post in new_posts: master["posts"][post["id"]] = post`. -/
def upsertPosts (m : List (String × Post)) (new_posts : List Post) :
    List (String × Post) :=
  new_posts.foldl (fun acc p => upsertA acc p.pid p) m

/-- `merge_into_master`: `existing = none` models the master file not existing
yet (a fresh store is initialized with `created := now`); `now` is the value
`datetime.utcnow().isoformat()` takes during this call. -/
def merge_into_master (existing : Option Master) (new_posts : List Post)
    (now : String) : Master :=
  let master := existing.getD { posts := [], created := now,
                                last_updated := none, total_posts := none }
  let posts' := upsertPosts master.posts new_posts
  { posts := posts', created := master.created,
    last_updated := some now, total_posts := some posts'.length }

/-- The last value the post list `R` binds to id `k` (later writes win);
`none` when no post in `R` has id `k`. -/
def lastVal : List Post → String → Option Post
  | [], _ => none
  | p :: R, k =>
    match lastVal R k with
    | some q => some q
    | none => if p.pid = k then some p else none

theorem upsertPosts_cons (m : List (String × Post)) (p : Post) (R : List Post) :
    upsertPosts m (p :: R) = upsertPosts (upsertA m p.pid p) R := rfl

theorem lastVal_cons_some (p : Post) (R : List Post) (k : String) (q : Post)
    (h : lastVal R k = some q) : lastVal (p :: R) k = some q := by
  rw [lastVal, h]

theorem lastVal_cons_none (p : Post) (R : List Post) (k : String)
    (h : lastVal R k = none) :
    lastVal (p :: R) k = if p.pid = k then some p else none := by
  rw [lastVal, h]

theorem lastVal_eq_none_iff (R : List Post) (k : String) :
    lastVal R k = none ↔ ∀ p ∈ R, p.pid ≠ k := by
  induction R with
  | nil => simp [lastVal]
  | cons p R ih =>
    constructor
    · intro h
      rcases hmatch : lastVal R k with _ | q'
      · rw [lastVal_cons_none p R k hmatch] at h
        intro x hx
        rcases List.mem_cons.mp hx with rfl | hx
        · intro hk
          rw [if_pos hk] at h
          cases h
        · exact ih.mp hmatch x hx
      · rw [lastVal_cons_some p R k q' hmatch] at h
        cases h
    · intro h
      have ht : lastVal R k = none :=
        ih.mpr (fun q hq => h q (List.mem_cons_of_mem _ hq))
      rw [lastVal_cons_none p R k ht, if_neg (h p (List.mem_cons_self _ _))]

theorem lastVal_some_mem (R : List Post) (k : String) (u : Post)
    (h : lastVal R k = some u) : u ∈ R ∧ u.pid = k := by
  induction R with
  | nil => cases h
  | cons p R ih =>
    rcases hmatch : lastVal R k with _ | q
    · rw [lastVal_cons_none p R k hmatch] at h
      by_cases hpk : p.pid = k
      · rw [if_pos hpk] at h
        cases h
        exact ⟨List.mem_cons_self _ _, hpk⟩
      · rw [if_neg hpk] at h
        cases h
    · rw [lastVal_cons_some p R k q hmatch] at h
      cases h
      rcases ih hmatch with ⟨hm, hk⟩
      exact ⟨List.mem_cons_of_mem _ hm, hk⟩

theorem containsKey_upsertPosts_mono (m : List (String × Post)) (R : List Post)
    (j : String) (h : containsKey m j = true) :
    containsKey (upsertPosts m R) j = true := by
  induction R generalizing m with
  | nil => exact h
  | cons p R ih => exact ih _ (containsKey_upsertA_of m p.pid j p h)

theorem containsKey_upsertPosts (m : List (String × Post)) (R : List Post)
    (p : Post) (hp : p ∈ R) : containsKey (upsertPosts m R) p.pid = true := by
  induction R generalizing m with
  | nil => cases hp
  | cons q R ih =>
    rw [upsertPosts_cons]
    rcases List.mem_cons.mp hp with rfl | hp
    · exact containsKey_upsertPosts_mono _ R _ (containsKey_upsertA_self m p.pid p)
    · exact ih _ hp

theorem mem_upsertPosts_of_unwritten (m : List (String × Post)) (R : List Post)
    (j : String) (w : Post) (hmem : (j, w) ∈ upsertPosts m R)
    (hnone : lastVal R j = none) : (j, w) ∈ m := by
  induction R generalizing m with
  | nil => exact hmem
  | cons p R ih =>
    rw [upsertPosts_cons] at hmem
    have hall := (lastVal_eq_none_iff _ _).mp hnone
    have htail : lastVal R j = none :=
      (lastVal_eq_none_iff _ _).mpr (fun q hq => hall q (List.mem_cons_of_mem _ hq))
    have hm : (j, w) ∈ upsertA m p.pid p := ih _ hmem htail
    exact mem_upsertA_of_ne m p.pid j p w hm
      (fun hjk => hall p (List.mem_cons_self _ _) (by rw [hjk]))

theorem mem_upsertPosts_val (m : List (String × Post)) (R : List Post)
    (j : String) (w u : Post) (hmem : (j, w) ∈ upsertPosts m R)
    (hlast : lastVal R j = some u) : w = u := by
  induction R generalizing m with
  | nil => cases hlast
  | cons p R ih =>
    rw [upsertPosts_cons] at hmem
    rcases hmatch : lastVal R j with _ | q
    · rw [lastVal_cons_none p R j hmatch] at hlast
      by_cases hpj : p.pid = j
      · rw [if_pos hpj] at hlast
        cases hlast
        have hm := mem_upsertPosts_of_unwritten _ R j w hmem hmatch
        rw [hpj] at hm
        exact mem_upsertA_self_val m j _ w hm
      · rw [if_neg hpj] at hlast
        cases hlast
    · rw [lastVal_cons_some p R j q hmatch] at hlast
      cases hlast
      exact ih _ hmem hmatch

theorem upsertA_of_contains {α : Type} (m : List (String × α)) (k : String)
    (v : α) (h : containsKey m k = true) :
    upsertA m k v = m.map (fun q => if q.1 = k then (k, v) else q) := by
  unfold upsertA
  rw [if_pos h]

/-- When every id written by `R` is already present in `m`, the fold only
replaces values in place: it maps each entry to the last value `R` assigns
to its key. -/
theorem upsertPosts_char (R : List Post) :
    ∀ m : List (String × Post), (∀ p ∈ R, containsKey m p.pid = true) →
      upsertPosts m R =
        m.map (fun q =>
          match lastVal R q.1 with
          | some u => (q.1, u)
          | none => q) := by
  induction R with
  | nil =>
    intro m _
    show m = _
    apply Eq.symm
    have h : ∀ q ∈ m,
        (match lastVal [] q.1 with
         | some u => (q.1, u)
         | none => q) = q := by
      intro q _
      rfl
    rw [List.map_congr_left h, List.map_id']
  | cons p R ih =>
    intro m hall
    have hp : containsKey m p.pid = true := hall p (List.mem_cons_self _ _)
    rw [upsertPosts_cons]
    have hkeys : ∀ q ∈ R, containsKey (upsertA m p.pid p) q.pid = true :=
      fun q hq => containsKey_upsertA_of _ _ _ _ (hall q (List.mem_cons_of_mem _ hq))
    rw [ih _ hkeys, upsertA_of_contains m p.pid p hp, List.map_map]
    apply List.map_congr_left
    intro q _
    simp only [Function.comp_apply]
    by_cases hq : q.1 = p.pid
    · rw [if_pos hq]
      show (match lastVal R p.pid with
            | some u => (p.pid, u)
            | none => (p.pid, p)) = _
      rcases hmatch : lastVal R p.pid with _ | u
      · rw [hq, lastVal_cons_none p R p.pid hmatch, if_pos rfl]
      · rw [hq, lastVal_cons_some p R p.pid u hmatch]
    · rw [if_neg hq]
      show (match lastVal R q.1 with
            | some u => (q.1, u)
            | none => q) = _
      rcases hmatch : lastVal R q.1 with _ | u
      · rw [lastVal_cons_none p R q.1 hmatch, if_neg (fun h => hq h.symm)]
      · rw [lastVal_cons_some p R q.1 u hmatch]

theorem upsertPosts_idem (m : List (String × Post)) (R : List Post) :
    upsertPosts (upsertPosts m R) R = upsertPosts m R := by
  rw [upsertPosts_char R (upsertPosts m R)
      (fun p hp => containsKey_upsertPosts m R p hp)]
  have h : ∀ q ∈ upsertPosts m R,
      (match lastVal R q.1 with
       | some u => (q.1, u)
       | none => q) = q := by
    intro q hq
    rcases hmatch : lastVal R q.1 with _ | u
    · rfl
    · show (q.1, u) = q
      have h2 : q.2 = u :=
        mem_upsertPosts_val m R q.1 q.2 u (by simpa using hq) hmatch
      rw [← h2]
  rw [List.map_congr_left h, List.map_id']

/-- `d[k] = v` makes a later lookup return the written value: after the merge
fold, the store binds every id written by `R` to the *last* post in `R`
carrying that id. -/
theorem lookupA_upsertPosts (m : List (String × Post)) (R : List Post)
    (k : String) (u : Post) (hlast : lastVal R k = some u) :
    lookupA (upsertPosts m R) k = some u := by
  have hk : containsKey (upsertPosts m R) k = true := by
    rcases lastVal_some_mem R k u hlast with ⟨hm, hpk⟩
    rw [← hpk]
    exact containsKey_upsertPosts m R u hm
  rcases hfind : (upsertPosts m R).find? (fun q => q.1 = k) with _ | q
  · exfalso
    rcases (containsKey_iff _ _).mp hk with ⟨q, hq, hqk⟩
    have := List.find?_eq_none.mp hfind q hq
    simp [hqk] at this
  · have hqmem := List.mem_of_find?_eq_some hfind
    have hqk : q.1 = k := by
      have := List.find?_some hfind
      simpa using this
    have hval : q.2 = u := by
      apply mem_upsertPosts_val m R k q.2 u _ hlast
      rw [← hqk]
      simpa using hqmem
    simp [lookupA, hfind, hval]

/-- A concrete raw post used by witnesses and counterexamples. -/
def rp0 : RawPost :=
  { pid := "x1", name := "t3_x1", title := "T", selftext := "S",
    author := "au", created_utc := 100, score := 5, num_comments := 2,
    link_flair_text := some "Classes", permalink := "/r/UFL/x1", url := "u1" }

def post0 : Post := buildPost rp0

/-- Claim C1 (amended).  Merging the same item list twice is idempotent on the
post map, the creation metadata and the recomputed total count, and fully
idempotent when the second merge happens at the same wall-clock timestamp;
however `merge_into_master` unconditionally rewrites `meta["last_updated"]`
to the current time, so a re-merge at a later timestamp yields a store that
differs from the first in that metadata field (and only there). -/
theorem merge_idempotent_on_content (S : Option Master) (R : List Post)
    (t t2 : String) :
    (merge_into_master (some (merge_into_master S R t)) R t2).posts =
      (merge_into_master S R t).posts ∧
    (merge_into_master (some (merge_into_master S R t)) R t2).created =
      (merge_into_master S R t).created ∧
    (merge_into_master (some (merge_into_master S R t)) R t2).total_posts =
      (merge_into_master S R t).total_posts ∧
    (merge_into_master (some (merge_into_master S R t)) R t2).last_updated =
      some t2 ∧
    (t2 = t →
      merge_into_master (some (merge_into_master S R t)) R t2 =
        merge_into_master S R t) := by
  simp only [merge_into_master, Option.getD_some]
  rw [upsertPosts_idem]
  refine ⟨?_, ?_, ?_, ?_, fun ht => by rw [ht]⟩ <;> first | rfl | trivial

/-- Witness for the conditional part of the amended C1 theorem, at a concrete
store, item list and timestamp. -/
theorem merge_idempotent_on_content_witness :
    merge_into_master (some (merge_into_master none [post0] "2024-01-01T00:00:00"))
        [post0] "2024-01-01T00:00:00" =
      merge_into_master none [post0] "2024-01-01T00:00:00" :=
  (merge_idempotent_on_content none [post0] "2024-01-01T00:00:00"
    "2024-01-01T00:00:00").2.2.2.2 rfl

/-- Claim C1 counterexample: applying `merge(S, R)` a second time at a later
wall-clock instant does change the stored metadata — `merge(merge(S,R),R)`
differs from `merge(S,R)` in `meta["last_updated"]` — so the idempotence
equation fails when it is read as covering all stored metadata. -/
theorem merge_idempotence_cex :
    merge_into_master (some (merge_into_master none [post0] "2024-01-01T00:00:00"))
        [post0] "2024-01-02T00:00:00" ≠
      merge_into_master none [post0] "2024-01-01T00:00:00" := by
  intro h
  have h2 := congrArg Master.last_updated h
  simp only [merge_into_master] at h2
  injection h2 with h3
  exact absurd h3 (by decide)

/-! ## Paginated crawler (`scrape_posts`, lines 96–158)

The upstream search endpoint is modelled as a function `server` from the
`after` cursor sent in the request (absent on the first page) to the listing
it answers with.  The `while True` loop becomes fuel-indexed recursion; every
claim proved below holds for every amount of fuel.  Python truthiness is kept
faithfully: `if since_ts ...`, `if until_ts ...`, `if max_posts ...` and
`if not after` treat `None`, `0` and the empty string as false. -/

/-- Truthiness of an optional number: `None` and `0` are falsy. -/
def truthyN : Option Nat → Bool
  | none => false
  | some n => n != 0

/-- Truthiness of an optional string: `None` and `""` are falsy. -/
def truthyS : Option String → Bool
  | none => false
  | some s => s != ""

/-- One page of the search listing: `data["children"]` and `data["after"]`. -/
structure Listing where
  children : List RawPost
  after : Option String
deriving DecidableEq, Repr

/-- The `for c in children` body of `scrape_posts` (lines 119–147): skip
out-of-window items, mark the page valid, insert first-seen ids, and return
early (third component `true`) as soon as the accumulated unique count
reaches a truthy `max_posts`. -/
def process_children (since_ts until_ts max_posts : Option Nat) :
    List RawPost → List (String × Post) → Bool →
      List (String × Post) × Bool × Bool
  | [], posts, page_valid => (posts, page_valid, false)
  | c :: rest, posts, page_valid =>
    if truthyN since_ts && decide (c.created_utc < since_ts.getD 0) then
      process_children since_ts until_ts max_posts rest posts page_valid
    else if truthyN until_ts && decide (until_ts.getD 0 < c.created_utc) then
      process_children since_ts until_ts max_posts rest posts page_valid
    else
      if truthyN max_posts && decide (max_posts.getD 0 ≤
          (if containsKey posts c.pid then posts
           else posts ++ [(c.pid, buildPost c)]).length) then
        ((if containsKey posts c.pid then posts
          else posts ++ [(c.pid, buildPost c)]), true, true)
      else
        process_children since_ts until_ts max_posts rest
          (if containsKey posts c.pid then posts
           else posts ++ [(c.pid, buildPost c)]) true

/-- Result of a crawl, with two ghost trace fields: the `after` cursor of
every page request issued, and the size `len(posts)` had at the moment each
request was issued. -/
structure ScrapeOut where
  posts : List (String × Post)
  fetches : List (Option String)
  countsAtFetch : List Nat

/-- The `while True` page loop of `scrape_posts`, with `fuel` bounding the
number of page fetches (the loop body is otherwise verbatim: empty page,
mid-page max-posts return, no-valid-item break, falsy-`after` break).
`server after` is the listing the endpoint answers with for that cursor. -/
def scrape_go (server : Option String → Listing)
    (since_ts until_ts max_posts : Option Nat) :
    Nat → Option String → List (String × Post) → List (Option String) →
      List Nat → ScrapeOut
  | 0, _, posts, fs, cnts => ⟨posts, fs, cnts⟩
  | Nat.succ fuel, after, posts, fs, cnts =>
    if (server after).children.isEmpty then
      ⟨posts, fs ++ [after], cnts ++ [posts.length]⟩
    else
      match process_children since_ts until_ts max_posts (server after).children posts false with
      | (posts', _, true) => ⟨posts', fs ++ [after], cnts ++ [posts.length]⟩
      | (posts', page_valid, false) =>
        if page_valid = false then ⟨posts', fs ++ [after], cnts ++ [posts.length]⟩
        else if truthyS (server after).after then
          scrape_go server since_ts until_ts max_posts fuel (server after).after
            posts' (fs ++ [after]) (cnts ++ [posts.length])
        else ⟨posts', fs ++ [after], cnts ++ [posts.length]⟩

def scrape_posts (server : Option String → Listing)
    (since_ts until_ts max_posts : Option Nat) (fuel : Nat) : ScrapeOut :=
  scrape_go server since_ts until_ts max_posts fuel none [] [] []

/-- The window computation of `run_for_flair` (lines 187–193): in `--days`
mode the window is `[now - days*86400, now]`; in explicit-date mode the
`until` day's epoch gets `+ 86399` so the bound is inclusive through the end
of that day.  (`epoch_from_iso` is abstracted into the epoch arguments.) -/
def run_for_flair_bounds (days : Option Nat) (now : Nat)
    (since_epoch until_epoch : Option Nat) : Option Nat × Option Nat :=
  if truthyN days then (some (now - (days.getD 0) * 86400), some now)
  else (since_epoch, until_epoch.map (fun e => e + 86399))

theorem containsKey_eq_mem_keysOf {α : Type} (m : List (String × α)) (k : String) :
    containsKey m k = true ↔ k ∈ keysOf m := by
  rw [containsKey_iff]
  simp [keysOf, eq_comm]

theorem keysOf_append {α : Type} (m₁ m₂ : List (String × α)) :
    keysOf (m₁ ++ m₂) = keysOf m₁ ++ keysOf m₂ := by
  simp [keysOf]

theorem lookupA_append_left {α : Type} (l₁ l₂ : List (String × α)) (k : String)
    (v : α) (h : lookupA l₁ k = some v) : lookupA (l₁ ++ l₂) k = some v := by
  induction l₁ with
  | nil => simp [lookupA] at h
  | cons q l₁ ih =>
    by_cases hq : q.1 = k
    · simpa [lookupA, List.find?_cons, hq] using h
    · simp only [lookupA, List.cons_append, List.find?_cons, hq, decide_False] at h ⊢
      exact ih h

theorem process_children_mono (s u mp : Option Nat) (cs : List RawPost) :
    ∀ posts pv, ∃ Δ, (process_children s u mp cs posts pv).1 = posts ++ Δ := by
  induction cs with
  | nil => intro posts pv; exact ⟨[], by simp [process_children]⟩
  | cons c rest ih =>
    intro posts pv
    rw [process_children]
    split
    · exact ih posts pv
    · split
      · exact ih posts pv
      · by_cases hk : containsKey posts c.pid
        · simp only [hk, if_true]
          split
          · exact ⟨[], by simp⟩
          · exact ih posts true
        · simp only [hk, if_false, Bool.false_eq_true]
          split
          · exact ⟨[(c.pid, buildPost c)], rfl⟩
          · rcases ih (posts ++ [(c.pid, buildPost c)]) true with ⟨Δ, hΔ⟩
            exact ⟨[(c.pid, buildPost c)] ++ Δ, by rw [hΔ, List.append_assoc]⟩

theorem scrape_go_mono (server : Option String → Listing) (s u mp : Option Nat) :
    ∀ (fuel : Nat) (after : Option String) posts fs cnts,
      (∃ Δ, (scrape_go server s u mp fuel after posts fs cnts).posts = posts ++ Δ) ∧
      (∃ Φ, (scrape_go server s u mp fuel after posts fs cnts).fetches = fs ++ Φ) := by
  intro fuel
  induction fuel with
  | zero =>
    intro after posts fs cnts
    exact ⟨⟨[], by simp [scrape_go]⟩, ⟨[], by simp [scrape_go]⟩⟩
  | succ fuel ih =>
    intro after posts fs cnts
    rcases process_children_mono s u mp (server after).children posts false
      with ⟨Δ₀, hΔ₀⟩
    rw [scrape_go]
    split
    · exact ⟨⟨[], by simp⟩, ⟨[after], rfl⟩⟩
    · rcases hpc : process_children s u mp (server after).children posts false
        with ⟨P, V, capb⟩
      rw [hpc] at hΔ₀
      dsimp only at hΔ₀
      cases capb
      · dsimp only
        split
        · exact ⟨⟨Δ₀, hΔ₀⟩, ⟨[after], rfl⟩⟩
        · split
          · rcases ih (server after).after P (fs ++ [after]) (cnts ++ [posts.length])
              with ⟨⟨Δ, hΔ⟩, ⟨Φ, hΦ⟩⟩
            refine ⟨⟨Δ₀ ++ Δ, ?_⟩, ⟨[after] ++ Φ, ?_⟩⟩
            · rw [hΔ, hΔ₀, List.append_assoc]
            · rw [hΦ, List.append_assoc]
          · exact ⟨⟨Δ₀, hΔ₀⟩, ⟨[after], rfl⟩⟩
      · dsimp only
        exact ⟨⟨Δ₀, hΔ₀⟩, ⟨[after], rfl⟩⟩

/-! Step lemmas exposing the three branches of the `for c in children` body. -/

theorem pc_skip_since (s u mp : Option Nat) (c : RawPost) (rest : List RawPost)
    (posts : List (String × Post)) (pv : Bool)
    (h : (truthyN s && decide (c.created_utc < s.getD 0)) = true) :
    process_children s u mp (c :: rest) posts pv =
      process_children s u mp rest posts pv := by
  rw [process_children, if_pos h]

theorem pc_skip_until (s u mp : Option Nat) (c : RawPost) (rest : List RawPost)
    (posts : List (String × Post)) (pv : Bool)
    (h1 : (truthyN s && decide (c.created_utc < s.getD 0)) = false)
    (h2 : (truthyN u && decide (u.getD 0 < c.created_utc)) = true) :
    process_children s u mp (c :: rest) posts pv =
      process_children s u mp rest posts pv := by
  rw [process_children, if_neg (by simp [h1]), if_pos h2]

theorem pc_insert_cont (s u mp : Option Nat) (c : RawPost) (rest : List RawPost)
    (posts : List (String × Post)) (pv : Bool)
    (h1 : (truthyN s && decide (c.created_utc < s.getD 0)) = false)
    (h2 : (truthyN u && decide (u.getD 0 < c.created_utc)) = false)
    (hcap : (truthyN mp && decide (mp.getD 0 ≤
        (if containsKey posts c.pid then posts
         else posts ++ [(c.pid, buildPost c)]).length)) = false) :
    process_children s u mp (c :: rest) posts pv =
      process_children s u mp rest
        (if containsKey posts c.pid then posts
         else posts ++ [(c.pid, buildPost c)]) true := by
  rw [process_children, if_neg (by simp [h1]), if_neg (by simp [h2]),
    if_neg (by simp [hcap])]

theorem pc_insert_stop (s u mp : Option Nat) (c : RawPost) (rest : List RawPost)
    (posts : List (String × Post)) (pv : Bool)
    (h1 : (truthyN s && decide (c.created_utc < s.getD 0)) = false)
    (h2 : (truthyN u && decide (u.getD 0 < c.created_utc)) = false)
    (hcap : (truthyN mp && decide (mp.getD 0 ≤
        (if containsKey posts c.pid then posts
         else posts ++ [(c.pid, buildPost c)]).length)) = true) :
    process_children s u mp (c :: rest) posts pv =
      ((if containsKey posts c.pid then posts
        else posts ++ [(c.pid, buildPost c)]), true, true) := by
  rw [process_children, if_neg (by simp [h1]), if_neg (by simp [h2]), if_pos hcap]

/-- An uncapped run (`max_posts = None`, falsy) never triggers the mid-page
return. -/
theorem pc_nocap (s u : Option Nat) (cs : List RawPost) :
    ∀ posts pv, (process_children s u none cs posts pv).2.2 = false := by
  induction cs with
  | nil => intro posts pv; rfl
  | cons c rest ih =>
    intro posts pv
    by_cases h1 : (truthyN s && decide (c.created_utc < s.getD 0)) = true
    · rw [pc_skip_since s u none c rest posts pv h1]
      exact ih posts pv
    · rw [Bool.not_eq_true] at h1
      by_cases h2 : (truthyN u && decide (u.getD 0 < c.created_utc)) = true
      · rw [pc_skip_until s u none c rest posts pv h1 h2]
        exact ih posts pv
      · rw [Bool.not_eq_true] at h2
        rw [pc_insert_cont s u none c rest posts pv h1 h2 (by simp [truthyN])]
        exact ih _ true

theorem getD_eq_zero_of_falsy (x : Option Nat) (h : truthyN x = false) :
    x.getD 0 = 0 := by
  cases x with
  | none => rfl
  | some n =>
    simp only [truthyN, bne_eq_false_iff_eq] at h
    simp [h]

/-- Every id list stays duplicate-free through a page body: new pairs are
appended only under a negative `pid not in posts` check. -/
theorem pc_nodup (s u mp : Option Nat) (cs : List RawPost) :
    ∀ posts pv, (keysOf posts).Nodup →
      (keysOf (process_children s u mp cs posts pv).1).Nodup := by
  induction cs with
  | nil => intro posts pv h; exact h
  | cons c rest ih =>
    intro posts pv h
    by_cases h1 : (truthyN s && decide (c.created_utc < s.getD 0)) = true
    · rw [pc_skip_since s u mp c rest posts pv h1]
      exact ih posts pv h
    · rw [Bool.not_eq_true] at h1
      by_cases h2 : (truthyN u && decide (u.getD 0 < c.created_utc)) = true
      · rw [pc_skip_until s u mp c rest posts pv h1 h2]
        exact ih posts pv h
      · rw [Bool.not_eq_true] at h2
        have hins : (keysOf (if containsKey posts c.pid then posts
            else posts ++ [(c.pid, buildPost c)])).Nodup := by
          by_cases hk : containsKey posts c.pid
          · rwa [if_pos hk]
          · rw [if_neg hk, keysOf_append]
            rw [List.nodup_append]
            refine ⟨h, List.nodup_singleton _, ?_⟩
            intro a ha hb
            simp only [keysOf, List.map_cons, List.map_nil, List.mem_singleton] at hb
            rw [hb] at ha
            exact hk ((containsKey_eq_mem_keysOf posts c.pid).mpr ha)
        by_cases hcap : (truthyN mp && decide (mp.getD 0 ≤
            (if containsKey posts c.pid then posts
             else posts ++ [(c.pid, buildPost c)]).length)) = true
        · rw [pc_insert_stop s u mp c rest posts pv h1 h2 hcap]
          exact hins
        · rw [Bool.not_eq_true] at hcap
          rw [pc_insert_cont s u mp c rest posts pv h1 h2 hcap]
          exact ih _ true hins

/-- Window invariant for a page body: every stored post was inserted only
after passing the (truthy) since/until filters. -/
theorem pc_inwin (s u mp : Option Nat) (cs : List RawPost) :
    ∀ posts pv,
      (∀ x ∈ posts, s.getD 0 ≤ x.2.created_utc ∧
        (truthyN u = true → x.2.created_utc ≤ u.getD 0)) →
      ∀ x ∈ (process_children s u mp cs posts pv).1,
        s.getD 0 ≤ x.2.created_utc ∧
          (truthyN u = true → x.2.created_utc ≤ u.getD 0) := by
  induction cs with
  | nil => intro posts pv h; exact h
  | cons c rest ih =>
    intro posts pv h
    by_cases h1 : (truthyN s && decide (c.created_utc < s.getD 0)) = true
    · rw [pc_skip_since s u mp c rest posts pv h1]
      exact ih posts pv h
    · rw [Bool.not_eq_true] at h1
      by_cases h2 : (truthyN u && decide (u.getD 0 < c.created_utc)) = true
      · rw [pc_skip_until s u mp c rest posts pv h1 h2]
        exact ih posts pv h
      · rw [Bool.not_eq_true] at h2
        have hc : s.getD 0 ≤ c.created_utc ∧
            (truthyN u = true → c.created_utc ≤ u.getD 0) := by
          constructor
          · rcases Bool.and_eq_false_iff.mp h1 with hs | hlt
            · rw [getD_eq_zero_of_falsy s hs]
              exact Nat.zero_le _
            · have := of_decide_eq_false hlt
              omega
          · intro hu
            rcases Bool.and_eq_false_iff.mp h2 with hu' | hgt
            · rw [hu] at hu'
              cases hu'
            · have := of_decide_eq_false hgt
              omega
        have hins : ∀ x ∈ (if containsKey posts c.pid then posts
            else posts ++ [(c.pid, buildPost c)]),
            s.getD 0 ≤ x.2.created_utc ∧
              (truthyN u = true → x.2.created_utc ≤ u.getD 0) := by
          by_cases hk : containsKey posts c.pid
          · rw [if_pos hk]; exact h
          · rw [if_neg hk]
            intro x hx
            rcases List.mem_append.mp hx with hx | hx
            · exact h x hx
            · simp only [List.mem_singleton] at hx
              rw [hx]
              exact hc
        by_cases hcap : (truthyN mp && decide (mp.getD 0 ≤
            (if containsKey posts c.pid then posts
             else posts ++ [(c.pid, buildPost c)]).length)) = true
        · rw [pc_insert_stop s u mp c rest posts pv h1 h2 hcap]
          exact hins
        · rw [Bool.not_eq_true] at hcap
          rw [pc_insert_cont s u mp c rest posts pv h1 h2 hcap]
          exact ih _ true hins

theorem truthyN_pos (K : Nat) (hK : 1 ≤ K) : truthyN (some K) = true := by
  simp only [truthyN, bne_iff_ne, ne_eq]
  omega

/-- Page-body cap lemma: starting below the cap, a capped page body either
behaves exactly like the uncapped one (when even uncapped it stays below
`K`) or returns early with precisely the first `K` unique items. -/
theorem pc_cap (s u : Option Nat) (K : Nat) (hK : 1 ≤ K) (cs : List RawPost) :
    ∀ posts pv, posts.length < K →
      ((process_children s u none cs posts pv).1.length < K →
        process_children s u (some K) cs posts pv =
          process_children s u none cs posts pv) ∧
      (K ≤ (process_children s u none cs posts pv).1.length →
        (process_children s u (some K) cs posts pv).1 =
          (process_children s u none cs posts pv).1.take K ∧
        (process_children s u (some K) cs posts pv).2.2 = true) := by
  induction cs with
  | nil =>
    intro posts pv hlen
    exact ⟨fun _ => rfl, fun hge => absurd hge (by simp [process_children]; omega)⟩
  | cons c rest ih =>
    intro posts pv hlen
    by_cases h1 : (truthyN s && decide (c.created_utc < s.getD 0)) = true
    · rw [pc_skip_since s u (some K) c rest posts pv h1,
        pc_skip_since s u none c rest posts pv h1]
      exact ih posts pv hlen
    · rw [Bool.not_eq_true] at h1
      by_cases h2 : (truthyN u && decide (u.getD 0 < c.created_utc)) = true
      · rw [pc_skip_until s u (some K) c rest posts pv h1 h2,
          pc_skip_until s u none c rest posts pv h1 h2]
        exact ih posts pv hlen
      · rw [Bool.not_eq_true] at h2
        have hIlen : (if containsKey posts c.pid then posts
            else posts ++ [(c.pid, buildPost c)]).length ≤ posts.length + 1 := by
          split <;> simp
        have huncap : process_children s u none (c :: rest) posts pv =
            process_children s u none rest
              (if containsKey posts c.pid then posts
               else posts ++ [(c.pid, buildPost c)]) true :=
          pc_insert_cont s u none c rest posts pv h1 h2 (by simp [truthyN])
        by_cases hKI : K ≤ (if containsKey posts c.pid then posts
            else posts ++ [(c.pid, buildPost c)]).length
        · have hcap : (truthyN (some K) && decide ((some K).getD 0 ≤
              (if containsKey posts c.pid then posts
               else posts ++ [(c.pid, buildPost c)]).length)) = true := by
            rw [truthyN_pos K hK]
            simpa using hKI
          rw [pc_insert_stop s u (some K) c rest posts pv h1 h2 hcap, huncap]
          rcases process_children_mono s u none rest
            (if containsKey posts c.pid then posts
             else posts ++ [(c.pid, buildPost c)]) true with ⟨Δ, hΔ⟩
          have hKeq : K = (if containsKey posts c.pid then posts
              else posts ++ [(c.pid, buildPost c)]).length := by omega
          constructor
          · intro hlt
            rw [hΔ, List.length_append] at hlt
            omega
          · intro _
            refine ⟨?_, rfl⟩
            rw [hΔ, hKeq, List.take_left]
        · have hcap : (truthyN (some K) && decide ((some K).getD 0 ≤
              (if containsKey posts c.pid then posts
               else posts ++ [(c.pid, buildPost c)]).length)) = false := by
            simp only [Option.getD_some, Bool.and_eq_false_iff]
            right
            simpa using hKI
          rw [pc_insert_cont s u (some K) c rest posts pv h1 h2 hcap, huncap]
          exact ih _ true (by omega)

/-- Crawl-level cap lemma: starting below the cap, the capped crawl returns
exactly the first `K` unique items the uncapped crawl would return, issues
no more page fetches than it, and every fetch it issues happens while the
accumulated count is still below `K`. -/
theorem scrape_go_cap (server : Option String → Listing) (s u : Option Nat)
    (K : Nat) (hK : 1 ≤ K) :
    ∀ (fuel : Nat) (after : Option String) posts fs cnts, posts.length < K →
      ((scrape_go server s u (some K) fuel after posts fs cnts).posts =
        (scrape_go server s u none fuel after posts fs cnts).posts.take K) ∧
      ((scrape_go server s u (some K) fuel after posts fs cnts).fetches.length ≤
        (scrape_go server s u none fuel after posts fs cnts).fetches.length) ∧
      (∀ x ∈ (scrape_go server s u (some K) fuel after posts fs cnts).countsAtFetch,
        x ∈ cnts ∨ x < K) := by
  intro fuel
  induction fuel with
  | zero =>
    intro after posts fs cnts hlen
    dsimp only [scrape_go]
    exact ⟨(List.take_of_length_le (by omega)).symm, le_refl _, fun x hx => Or.inl hx⟩
  | succ fuel ih =>
    intro after posts fs cnts hlen
    have hcnt : ∀ x ∈ cnts ++ [posts.length], x ∈ cnts ∨ x < K := by
      intro x hx
      rcases List.mem_append.mp hx with hx | hx
      · exact Or.inl hx
      · simp only [List.mem_singleton] at hx
        omega
    rw [scrape_go, scrape_go]
    by_cases hemp : (server after).children.isEmpty = true
    · simp only [hemp, eq_self_iff_true, if_true]
      exact ⟨(List.take_of_length_le (by omega)).symm, le_refl _, hcnt⟩
    · simp only [hemp, Bool.false_eq_true, if_false]
      rcases hpcN : process_children s u none (server after).children posts false
        with ⟨NP, NV, ncap⟩
      have hnc := pc_nocap s u (server after).children posts false
      rw [hpcN] at hnc
      dsimp only at hnc
      subst hnc
      rcases pc_cap s u K hK (server after).children posts false hlen
        with ⟨hfst, hsnd⟩
      rw [hpcN] at hfst hsnd
      dsimp only at hfst hsnd
      rcases process_children_mono s u none (server after).children posts false
        with ⟨Δ₀, hΔ₀⟩
      rw [hpcN] at hΔ₀
      dsimp only at hΔ₀
      by_cases hNP : NP.length < K
      · rw [hfst hNP]
        dsimp only
        by_cases hNV : NV = false
        · simp only [hNV, eq_self_iff_true, if_true]
          exact ⟨(List.take_of_length_le (by omega)).symm, le_refl _, hcnt⟩
        · simp only [if_neg hNV]
          by_cases hS : truthyS (server after).after = true
          · simp only [hS, if_true]
            rcases ih (server after).after NP (fs ++ [after])
              (cnts ++ [posts.length]) hNP with ⟨hp, hf, hc⟩
            refine ⟨hp, hf, fun x hx => ?_⟩
            rcases hc x hx with hx' | hx'
            · exact hcnt x hx'
            · exact Or.inr hx'
          · simp only [if_neg hS]
            exact ⟨(List.take_of_length_le (by omega)).symm, le_refl _, hcnt⟩
      · have hge : K ≤ NP.length := by omega
        rcases hpcC : process_children s u (some K) (server after).children posts false
          with ⟨CP, CV, ccap⟩
        rcases hsnd hge with ⟨hCP, hccap⟩
        rw [hpcC] at hCP hccap
        dsimp only at hCP hccap
        subst hccap
        dsimp only
        subst hCP
        by_cases hNV : NV = false
        · simp only [hNV, eq_self_iff_true, if_true]
          exact ⟨by trivial, le_refl _, hcnt⟩
        · simp only [if_neg hNV]
          by_cases hS : truthyS (server after).after = true
          · simp only [hS, if_true]
            rcases scrape_go_mono server s u none fuel (server after).after NP
              (fs ++ [after]) (cnts ++ [posts.length]) with ⟨⟨Δ, hΔ⟩, ⟨Φ, hΦ⟩⟩
            refine ⟨?_, ?_, hcnt⟩
            · rw [hΔ, List.take_append_eq_append_take,
                Nat.sub_eq_zero_of_le hge, List.take_zero, List.append_nil]
            · rw [hΦ]
              simp
          · simp only [if_neg hS]
            exact ⟨by trivial, le_refl _, hcnt⟩

theorem scrape_go_nodup (server : Option String → Listing) (s u mp : Option Nat) :
    ∀ (fuel : Nat) (after : Option String) posts fs cnts,
      (keysOf posts).Nodup →
      (keysOf (scrape_go server s u mp fuel after posts fs cnts).posts).Nodup := by
  intro fuel
  induction fuel with
  | zero => intro after posts fs cnts h; exact h
  | succ fuel ih =>
    intro after posts fs cnts h
    rw [scrape_go]
    by_cases hemp : (server after).children.isEmpty = true
    · simp only [hemp, eq_self_iff_true, if_true]
      exact h
    · simp only [hemp, Bool.false_eq_true, if_false]
      rcases hpc : process_children s u mp (server after).children posts false
        with ⟨P, V, capb⟩
      have hP := pc_nodup s u mp (server after).children posts false h
      rw [hpc] at hP
      dsimp only at hP
      cases capb
      · dsimp only
        by_cases hV : V = false
        · simp only [hV, eq_self_iff_true, if_true]
          exact hP
        · simp only [if_neg hV]
          by_cases hS : truthyS (server after).after = true
          · simp only [hS, if_true]
            exact ih _ P _ _ hP
          · simp only [if_neg hS]
            exact hP
      · dsimp only
        exact hP

theorem scrape_go_inwin (server : Option String → Listing) (s u mp : Option Nat) :
    ∀ (fuel : Nat) (after : Option String) posts fs cnts,
      (∀ x ∈ posts, s.getD 0 ≤ x.2.created_utc ∧
        (truthyN u = true → x.2.created_utc ≤ u.getD 0)) →
      ∀ x ∈ (scrape_go server s u mp fuel after posts fs cnts).posts,
        s.getD 0 ≤ x.2.created_utc ∧
          (truthyN u = true → x.2.created_utc ≤ u.getD 0) := by
  intro fuel
  induction fuel with
  | zero => intro after posts fs cnts h; exact h
  | succ fuel ih =>
    intro after posts fs cnts h
    rw [scrape_go]
    by_cases hemp : (server after).children.isEmpty = true
    · simp only [hemp, eq_self_iff_true, if_true]
      exact h
    · simp only [hemp, Bool.false_eq_true, if_false]
      rcases hpc : process_children s u mp (server after).children posts false
        with ⟨P, V, capb⟩
      have hP := pc_inwin s u mp (server after).children posts false h
      rw [hpc] at hP
      dsimp only at hP
      cases capb
      · dsimp only
        by_cases hV : V = false
        · simp only [hV, eq_self_iff_true, if_true]
          exact hP
        · simp only [if_neg hV]
          by_cases hS : truthyS (server after).after = true
          · simp only [hS, if_true]
            exact ih _ P _ _ hP
          · simp only [if_neg hS]
            exact hP
      · dsimp only
        exact hP

/-! ## Claim theorems for the crawler -/

/-- One-page fixture: a single item with timestamp 100, no continuation. -/
def srv0 : Option String → Listing := fun _ => ⟨[rp0], none⟩

def rp2 : RawPost :=
  { pid := "x2", name := "t3_x2", title := "T2", selftext := "S2",
    author := "au2", created_utc := 150, score := 1, num_comments := 0,
    link_flair_text := some "Classes", permalink := "/r/UFL/x2", url := "u2" }

/-- Two-item one-page fixture. -/
def srv2 : Option String → Listing := fun _ => ⟨[rp0, rp2], none⟩

/-- A second occurrence of id `x1` with different fields. -/
def rp0alt : RawPost :=
  { pid := "x1", name := "t3_x1", title := "CHANGED", selftext := "S9",
    author := "au9", created_utc := 500, score := 9, num_comments := 9,
    link_flair_text := some "Schedule", permalink := "/r/UFL/x1b", url := "u9" }

def srvDup : Option String → Listing := fun _ => ⟨[rp0alt], none⟩

/-- Claim C5 (amended).  For bounds supplied to `scrape_posts` with a nonzero
`until_ts` — in particular the end-of-day bound `epoch + 86399` that
`run_for_flair` computes for an explicit `--until` date — every returned item
satisfies `since_ts ≤ created_utc ≤ until_ts`, and no item id appears twice
in the returned list (for any bounds).  A zero bound is treated as absent
(no filtering), because the code guards each bound with Python truthiness
(`if since_ts ...` / `if until_ts ...`). -/
theorem crawler_bound_correctness (server : Option String → Listing)
    (fuel : Nat) (mp : Option Nat) (ss uu : Nat) (hu : uu ≠ 0) :
    (∀ x ∈ (scrape_posts server (some ss) (some uu) mp fuel).posts,
        ss ≤ x.2.created_utc ∧ x.2.created_utc ≤ uu) ∧
    (keysOf (scrape_posts server (some ss) (some uu) mp fuel).posts).Nodup ∧
    (∀ (now e : Nat) (sE : Option Nat),
        run_for_flair_bounds none now sE (some e) = (sE, some (e + 86399))) := by
  refine ⟨?_, ?_, ?_⟩
  · intro x hx
    have h := scrape_go_inwin server (some ss) (some uu) mp fuel none [] [] []
      (by intro x hx; cases hx) x hx
    rcases h with ⟨h1, h2⟩
    refine ⟨by simpa using h1, ?_⟩
    have ht : truthyN (some uu) = true := by
      simp only [truthyN, bne_iff_ne, ne_eq]
      exact hu
    simpa using h2 ht
  · exact scrape_go_nodup server (some ss) (some uu) mp fuel none [] [] []
      List.nodup_nil
  · intro now e sE
    simp [run_for_flair_bounds, truthyN]

/-- Witness for C5 at a concrete fixture: the single returned item respects
the bounds 1 and 200. -/
theorem crawler_bound_correctness_witness :
    1 ≤ ("x1", buildPost rp0).2.created_utc ∧
      ("x1", buildPost rp0).2.created_utc ≤ 200 :=
  (crawler_bound_correctness srv0 2 none 1 200 (by decide)).1
    ("x1", buildPost rp0)
    (by rw [show (scrape_posts srv0 (some 1) (some 200) none 2).posts =
          [("x1", buildPost rp0)] from rfl]
        exact List.mem_singleton.mpr rfl)

/-- Claim C5 counterexample: with the supplied bound pair `since_ts = 1`,
`until_ts = 0` the crawl returns the item with timestamp 100, violating
`since ≤ ts ≤ until` — a zero `until_ts` is falsy in Python, so line 124
never filters against it. -/
theorem crawler_bound_correctness_cex :
    ¬ (∀ x ∈ (scrape_posts srv0 (some 1) (some 0) none 2).posts,
        1 ≤ x.2.created_utc ∧ x.2.created_utc ≤ 0) := by
  decide

/-- Claim C6 (amended).  For every cap `K ≥ 1` supplied as `max_posts`, the
crawl returns exactly the first `min(K, number of unique in-window items the
uncapped crawl finds)` unique items, every page request is issued while the
accumulated unique count is still below `K` (so the crawl stops immediately,
even mid-page, once `K` is reached), and it never fetches more pages than the
uncapped crawl.  `max_posts = 0` is falsy in Python and means "no cap", which
is why `K ≥ 1` is required (see the counterexample). -/
theorem crawler_max_count (server : Option String → Listing)
    (s u : Option Nat) (fuel K : Nat) (hK : 1 ≤ K) :
    (scrape_posts server s u (some K) fuel).posts =
      ((scrape_posts server s u none fuel).posts).take K ∧
    (scrape_posts server s u (some K) fuel).posts.length =
      min K (scrape_posts server s u none fuel).posts.length ∧
    (∀ x ∈ (scrape_posts server s u (some K) fuel).countsAtFetch, x < K) ∧
    (scrape_posts server s u (some K) fuel).fetches.length ≤
      (scrape_posts server s u none fuel).fetches.length := by
  rcases scrape_go_cap server s u K hK fuel none [] [] [] (by simpa using hK)
    with ⟨hp, hf, hc⟩
  refine ⟨hp, ?_, ?_, hf⟩
  · rw [show scrape_posts server s u (some K) fuel =
        scrape_go server s u (some K) fuel none [] [] [] from rfl, hp,
      List.length_take]
    rfl
  · intro x hx
    rcases hc x hx with hx' | hx'
    · cases hx'
    · exact hx'

/-- Witness for C6: with `K = 1` against a two-item page, the capped crawl
returns exactly `min 1 2 = 1` item. -/
theorem crawler_max_count_witness :
    (scrape_posts srv2 none none (some 1) 3).posts.length =
      min 1 (scrape_posts srv2 none none none 3).posts.length ∧
    (scrape_posts srv2 none none (some 1) 3).posts.length = 1 :=
  ⟨(crawler_max_count srv2 none none 3 1 (by decide)).2.1, by decide⟩

/-- Claim C6 counterexample: with `max_posts = 0` supplied, the crawl does
not return `min(0, available) = 0` items — `0` is falsy, so the cap at line
146 is disabled and everything is returned. -/
theorem crawler_max_count_cex :
    ¬ ((scrape_posts srv0 none none (some 0) 2).posts.length =
        min 0 (scrape_posts srv0 none none none 2).posts.length) := by
  decide

/-- Claim C10.  Within one crawl, deduplication keeps the first-seen copy:
once an id is bound in the accumulated dict, no later occurrence on the same
or a later page can change the binding (`if pid not in posts` at line 129
only inserts absent ids, and insertion only appends).  By contrast the
master-store merge is an unconditional overwrite, so there the *last* post
in the merged list carrying an id wins. -/
theorem crawl_dedup_first_wins :
    (∀ (server : Option String → Listing) (s u mp : Option Nat) (fuel : Nat)
        (after : Option String) posts fs cnts (k : String) (p : Post),
        lookupA posts k = some p →
        lookupA (scrape_go server s u mp fuel after posts fs cnts).posts k =
          some p) ∧
    (∀ (m : List (String × Post)) (R : List Post) (k : String) (w : Post),
        lastVal R k = some w → lookupA (upsertPosts m R) k = some w) := by
  constructor
  · intro server s u mp fuel after posts fs cnts k p hp
    rcases (scrape_go_mono server s u mp fuel after posts fs cnts).1 with ⟨Δ, hΔ⟩
    rw [hΔ]
    exact lookupA_append_left _ _ _ _ hp
  · exact fun m R k w h => lookupA_upsertPosts m R k w h

/-- Witness for C10: id `x1` is bound to `post0` before a page carrying a
different `x1` payload is processed — the crawl keeps `post0`, while
merging `[post0, rp0alt]` into an empty master keeps the later `rp0alt`. -/
theorem crawl_dedup_first_wins_witness :
    lookupA (scrape_go srvDup none none none 2 none
        [("x1", post0)] [] []).posts "x1" = some post0 ∧
    lookupA (upsertPosts [] [post0, buildPost rp0alt]) "x1" =
      some (buildPost rp0alt) :=
  ⟨(crawl_dedup_first_wins).1 srvDup none none none 2 none
      [("x1", post0)] [] [] "x1" post0 rfl,
   (crawl_dedup_first_wins).2 [] [post0, buildPost rp0alt] "x1"
      (buildPost rp0alt) rfl⟩

/-! ## Retrying fetch client (`safe_request`, lines 45–57)

One call to `requests.get` either raises a `requests.RequestException`
(timeout, connection failure, or — via `raise_for_status` — an HTTP error),
modelled as `ReqOutcome.exn`, or yields a parsed 2xx JSON body, modelled as
`ReqOutcome.ok`.  A body can be `good` (the shape the caller expects, with a
`"data"` listing) or `bad` (successfully received and JSON-parsed, but of the
wrong shape, so the caller's `data["data"]` access raises).  The network is
an oracle assigning an outcome to each attempt index.  `time.sleep(backoff)`
is recorded in the `waits` trace; the backoff starts at `1.0` and doubles
after every failed attempt. -/

inductive Body where
  | good (l : Listing)
  | bad
deriving DecidableEq

inductive ReqOutcome where
  | exn
  | ok (b : Body)
deriving DecidableEq

/-- `result = none` models the final `raise RuntimeError` after the loop;
`attempts` counts issued requests; `waits` lists the backoff sleeps. -/
structure ReqResult where
  result : Option Body
  attempts : Nat
  waits : List ℚ
deriving DecidableEq

def MAX_RETRIES : Nat := 3

/-- The `for attempt in range(MAX_RETRIES)` loop: `i` is the index of the
next attempt, the second argument the number of attempts left. -/
def safe_request_go (outcomes : Nat → ReqOutcome) :
    Nat → Nat → ℚ → List ℚ → ReqResult
  | i, 0, _, ws => ⟨none, i, ws⟩
  | i, Nat.succ rem, backoff, ws =>
    match outcomes i with
    | .ok b => ⟨some b, i + 1, ws⟩
    | .exn => safe_request_go outcomes (i + 1) rem (backoff * 2) (ws ++ [backoff])

def safe_request (outcomes : Nat → ReqOutcome) : ReqResult :=
  safe_request_go outcomes 0 MAX_RETRIES 1 []

inductive FetchErr where
  | malformed
  | exhausted
deriving DecidableEq

/-- The caller-side shape access `listing = data["data"]` (line 112): on a
wrong-shape body the subscript raises immediately — there is no retry loop
around it. -/
def getListing : Body → Except FetchErr Listing
  | .good l => .ok l
  | .bad => .error .malformed

/-- One page fetch as the crawler performs it: `safe_request` followed by the
shape access; exhaustion of the retry loop surfaces as the fatal error. -/
def fetch_page (outcomes : Nat → ReqOutcome) : Except FetchErr Listing :=
  match (safe_request outcomes).result with
  | some b => getListing b
  | none => .error .exhausted

theorem srg_stop (oc : Nat → ReqOutcome) (i : Nat) (backoff : ℚ) (ws : List ℚ) :
    safe_request_go oc i 0 backoff ws = ⟨none, i, ws⟩ := rfl

theorem srg_ok (oc : Nat → ReqOutcome) (i : Nat) (b : Body)
    (h : oc i = .ok b) (rem : Nat) (backoff : ℚ) (ws : List ℚ) :
    safe_request_go oc i (rem + 1) backoff ws = ⟨some b, i + 1, ws⟩ := by
  rw [safe_request_go, h]

theorem srg_exn (oc : Nat → ReqOutcome) (i : Nat) (h : oc i = .exn)
    (rem : Nat) (backoff : ℚ) (ws : List ℚ) :
    safe_request_go oc i (rem + 1) backoff ws =
      safe_request_go oc (i + 1) rem (backoff * 2) (ws ++ [backoff]) := by
  rw [safe_request_go, h]

/-- Full evaluation of the client when the first `k` attempts fail
transiently and attempt `k` succeeds: the parsed body is returned after
exactly `k` backoff sleeps of `1, 2, 4, …` seconds, in `k + 1` attempts. -/
theorem safe_request_eval (oc : Nat → ReqOutcome) (k : Nat) (b : Body)
    (hk : k < MAX_RETRIES) (hfail : ∀ i, i < k → oc i = .exn)
    (hsucc : oc k = .ok b) :
    safe_request oc =
      ⟨some b, k + 1, (List.range k).map (fun i => (2 : ℚ) ^ i)⟩ := by
  rw [MAX_RETRIES] at hk
  rw [safe_request, show (MAX_RETRIES : Nat) = 2 + 1 from rfl]
  interval_cases k
  · rw [srg_ok oc 0 b hsucc 2 1 []]
    norm_num
  · rw [srg_exn oc 0 (hfail 0 (by omega)) 2 1 [],
      srg_ok oc 1 b hsucc 1 (1 * 2) ([] ++ [1])]
    norm_num [List.range_succ]
  · rw [srg_exn oc 0 (hfail 0 (by omega)) 2 1 [],
      srg_exn oc 1 (hfail 1 (by omega)) 1 (1 * 2) ([] ++ [1]),
      srg_ok oc 2 b hsucc 0 (1 * 2 * 2) ([] ++ [1] ++ [1 * 2])]
    norm_num
    rfl

/-- Full evaluation of the client when all `MAX_RETRIES` attempts fail
transiently: the loop exhausts after exactly `MAX_RETRIES` attempts (with a
backoff sleep after each, including the last) and then raises. -/
theorem safe_request_exhaust (oc : Nat → ReqOutcome)
    (h : ∀ i, i < MAX_RETRIES → oc i = .exn) :
    safe_request oc =
      ⟨none, MAX_RETRIES,
        (List.range MAX_RETRIES).map (fun i => (2 : ℚ) ^ i)⟩ := by
  rw [MAX_RETRIES] at h
  rw [safe_request, show (MAX_RETRIES : Nat) = 2 + 1 from rfl]
  rw [srg_exn oc 0 (h 0 (by omega)) 2 1 [],
    srg_exn oc 1 (h 1 (by omega)) 1 (1 * 2) ([] ++ [1]),
    srg_exn oc 2 (h 2 (by omega)) 0 (1 * 2 * 2) ([] ++ [1] ++ [1 * 2]),
    srg_stop]
  norm_num
  rfl

/-- Claim C3.  Retry semantics: if the request fails transiently `k` times
(`k <` the attempt cap) and then succeeds, the client returns the parsed
body after exactly `k` backoff waits, the base delay `1.0` doubling on each
attempt (`1, 2, 4, …`), in exactly `k + 1` attempts; if all `MAX_RETRIES`
attempts fail transiently, the client raises the fatal exhaustion error
after exactly `MAX_RETRIES` attempts, making no further attempts. -/
theorem retry_semantics :
    (∀ (oc : Nat → ReqOutcome) (k : Nat) (b : Body), k < MAX_RETRIES →
      (∀ i, i < k → oc i = .exn) → oc k = .ok b →
      safe_request oc =
        ⟨some b, k + 1, (List.range k).map (fun i => (2 : ℚ) ^ i)⟩) ∧
    (∀ oc : Nat → ReqOutcome, (∀ i, i < MAX_RETRIES → oc i = .exn) →
      (safe_request oc).result = none ∧
      (safe_request oc).attempts = MAX_RETRIES ∧
      fetch_page oc = .error .exhausted) := by
  refine ⟨safe_request_eval, fun oc h => ?_⟩
  rw [fetch_page, safe_request_exhaust oc h]
  exact ⟨rfl, rfl, rfl⟩

/-- Witness for C3: a client failing twice then succeeding returns the body
in three attempts after waits `[1, 2]`; an always-failing client exhausts. -/
theorem retry_semantics_witness :
    safe_request (fun i => if i < 2 then .exn else .ok (.good ⟨[], none⟩)) =
      ⟨some (.good ⟨[], none⟩), 3, (List.range 2).map (fun i => (2 : ℚ) ^ i)⟩ ∧
    (safe_request (fun _ => .exn)).result = none :=
  ⟨(retry_semantics).1 (fun i => if i < 2 then .exn else .ok (.good ⟨[], none⟩))
      2 (.good ⟨[], none⟩) (by decide) (by decide) (by decide),
   ((retry_semantics).2 (fun _ => .exn) (fun i _ => rfl)).1⟩

/-- Claim C4.  A response that is received successfully but has the wrong
shape is never retried: if attempt `k` yields a malformed body (after `k`
transient failures), the client hands it straight back — the fetch ends in
the malformed-response error after exactly `k + 1` attempts and `k` backoff
waits, so the malformation consumes no retry attempts and no waits. -/
theorem malformed_not_retried (oc : Nat → ReqOutcome) (k : Nat)
    (hk : k < MAX_RETRIES) (hfail : ∀ i, i < k → oc i = .exn)
    (hbad : oc k = .ok .bad) :
    fetch_page oc = .error .malformed ∧
    (safe_request oc).attempts = k + 1 ∧
    (safe_request oc).waits.length = k := by
  rw [fetch_page, safe_request_eval oc k .bad hk hfail hbad]
  refine ⟨rfl, rfl, ?_⟩
  simp

/-- Witness for C4: a malformed body on the very first attempt propagates
immediately — one attempt, zero waits. -/
theorem malformed_not_retried_witness :
    fetch_page (fun _ => .ok .bad) = .error .malformed ∧
    (safe_request (fun _ => .ok .bad)).attempts = 0 + 1 ∧
    (safe_request (fun _ => .ok .bad)).waits.length = 0 :=
  malformed_not_retried (fun _ => .ok .bad) 0 (by decide)
    (fun i hi => absurd hi (by omega)) rfl

/-! ## Reply-tree parsing (`parse_comment`, lines 61–79)

A node of the comments listing carries `node.get("kind")` and the fields of
`node["data"]` that `parse_comment` reads.  `replies = some cs` models the
case where `d.get("replies")` is a dict (its `["data"]["children"]` list is
`cs`); `replies = none` models any non-dict value (absent, or the empty
string Reddit sends when there are no replies). -/

inductive CNode where
  | mk (kind : Option String) (cid author body : Option String)
      (score created_utc : Option Int) (replies : Option (List CNode))

def CNode.kind : CNode → Option String
  | .mk k _ _ _ _ _ _ => k

def CNode.replies : CNode → Option (List CNode)
  | .mk _ _ _ _ _ _ r => r

mutual

/-- `parse_comment`: placeholder nodes (kind other than `"t1"`) yield `None`;
genuine nodes yield a comment dict whose `replies` list collects the parsed
children of its own nested payload (non-`None` results only), and is `[]`
when the payload has no dict under `"replies"`. -/
def parse_comment : CNode → Option Reply
  | .mk kind cid author body score created replies =>
    if kind = some "t1" then
      some (.mk cid author body score created
        (match replies with
         | some cs => parse_children cs
         | none => []))
    else
      none

/-- The `for child in replies["data"]["children"]` loop body. -/
def parse_children : List CNode → List Reply
  | [] => []
  | n :: ns =>
    match parse_comment n with
    | some r => r :: parse_children ns
    | none => parse_children ns

end

mutual

/-- Depth of a payload node: 1 + the depth of its nested reply payload. -/
def cdepth : CNode → Nat
  | .mk _ _ _ _ _ _ replies =>
    match replies with
    | some cs => 1 + cdepthL cs
    | none => 1

def cdepthL : List CNode → Nat
  | [] => 0
  | n :: ns => max (cdepth n) (cdepthL ns)

end

mutual

def rdepth : Reply → Nat
  | .mk _ _ _ _ _ children => 1 + rdepthL children

def rdepthL : List Reply → Nat
  | [] => 0
  | r :: rs => max (rdepth r) (rdepthL rs)

end

mutual

/-- Every node of the payload is a genuine `t1` discussion entry. -/
def allGen : CNode → Bool
  | .mk kind _ _ _ _ _ replies =>
    (kind == some "t1") &&
      (match replies with
       | some cs => allGenL cs
       | none => true)

def allGenL : List CNode → Bool
  | [] => true
  | n :: ns => allGen n && allGenL ns

end

/-! Constructor-case equations for the mutually recursive functions above
(they are compiled by well-founded recursion, so we expose one rewrite
equation per constructor). -/

theorem parse_comment_mk (kind cid author body : Option String)
    (score created : Option Int) (replies : Option (List CNode)) :
    parse_comment (.mk kind cid author body score created replies) =
      if kind = some "t1" then
        some (.mk cid author body score created
          (match replies with
           | some cs => parse_children cs
           | none => []))
      else none := by
  rw [parse_comment.eq_def]

theorem parse_children_nil : parse_children [] = [] := by
  rw [parse_children.eq_def]

theorem parse_children_cons (n : CNode) (ns : List CNode) :
    parse_children (n :: ns) =
      match parse_comment n with
      | some r => r :: parse_children ns
      | none => parse_children ns := by
  rw [parse_children.eq_def]

theorem cdepth_mk (kind cid author body : Option String)
    (score created : Option Int) (replies : Option (List CNode)) :
    cdepth (.mk kind cid author body score created replies) =
      match replies with
      | some cs => 1 + cdepthL cs
      | none => 1 := by
  rw [cdepth.eq_def]

theorem cdepthL_nil : cdepthL [] = 0 := by
  rw [cdepthL.eq_def]

theorem cdepthL_cons (n : CNode) (ns : List CNode) :
    cdepthL (n :: ns) = max (cdepth n) (cdepthL ns) := by
  rw [cdepthL.eq_def]

theorem rdepth_mk (cid author body : Option String)
    (score created : Option Int) (children : List Reply) :
    rdepth (.mk cid author body score created children) =
      1 + rdepthL children := by
  rw [rdepth.eq_def]

theorem rdepthL_nil : rdepthL [] = 0 := by
  rw [rdepthL.eq_def]

theorem rdepthL_cons (r : Reply) (rs : List Reply) :
    rdepthL (r :: rs) = max (rdepth r) (rdepthL rs) := by
  rw [rdepthL.eq_def]

theorem allGen_mk (kind cid author body : Option String)
    (score created : Option Int) (replies : Option (List CNode)) :
    allGen (.mk kind cid author body score created replies) =
      ((kind == some "t1") &&
        (match replies with
         | some cs => allGenL cs
         | none => true)) := by
  rw [allGen.eq_def]

theorem allGenL_nil : allGenL [] = true := by
  rw [allGenL.eq_def]

theorem allGenL_cons (n : CNode) (ns : List CNode) :
    allGenL (n :: ns) = (allGen n && allGenL ns) := by
  rw [allGenL.eq_def]

mutual

theorem parse_allGen (n : CNode) (h : allGen n = true) :
    ∃ r, parse_comment n = some r ∧ rdepth r = cdepth n := by
  cases n with
  | mk kind cid author body score created replies =>
    cases replies with
    | none =>
      rw [allGen_mk] at h
      dsimp only at h
      simp only [Bool.and_eq_true] at h
      have hk : kind = some "t1" := by simpa using h.1
      refine ⟨.mk cid author body score created [], ?_, ?_⟩
      · rw [parse_comment_mk, if_pos hk]
      · rw [rdepth_mk, rdepthL_nil, cdepth_mk]
    | some cs =>
      rw [allGen_mk] at h
      dsimp only at h
      simp only [Bool.and_eq_true] at h
      have hk : kind = some "t1" := by simpa using h.1
      rcases parseL_allGen cs h.2 with ⟨hlen, hdep⟩
      refine ⟨.mk cid author body score created (parse_children cs), ?_, ?_⟩
      · rw [parse_comment_mk, if_pos hk]
      · rw [rdepth_mk, cdepth_mk, hdep]
termination_by sizeOf n

theorem parseL_allGen (l : List CNode) (h : allGenL l = true) :
    (parse_children l).length = l.length ∧
      rdepthL (parse_children l) = cdepthL l := by
  cases l with
  | nil =>
    refine ⟨by rw [parse_children_nil]; rfl, ?_⟩
    rw [parse_children_nil, rdepthL_nil, cdepthL_nil]
  | cons n ns =>
    rw [allGenL_cons] at h
    simp only [Bool.and_eq_true] at h
    rcases parse_allGen n h.1 with ⟨r, hr, hd⟩
    rcases parseL_allGen ns h.2 with ⟨hlen, hdep⟩
    rw [parse_children_cons, hr]
    dsimp only
    refine ⟨by simp [hlen], ?_⟩
    rw [rdepthL_cons, cdepthL_cons, hd, hdep]
termination_by sizeOf l

end

/-- Claim C8.  Tree-parsing correctness: a placeholder/continuation node
(kind other than `"t1"`) parses to `None` — no error, and it contributes no
entry to a surrounding child list; a genuine node whose nested payload holds
`N` genuine children produces a Reply with exactly `N` child entries, each
recursively parsed to the exact depth of its payload; and a genuine node
with no nested reply payload yields a Reply whose child list is `[]` —
present, never absent. -/
theorem tree_parsing_correctness :
    (∀ (kind cid author body : Option String) (score created : Option Int)
        (replies : Option (List CNode)), kind ≠ some "t1" →
        parse_comment (.mk kind cid author body score created replies) = none) ∧
    (∀ (n : CNode) (ns : List CNode), parse_comment n = none →
        parse_children (n :: ns) = parse_children ns) ∧
    (∀ (cid author body : Option String) (score created : Option Int),
        parse_comment (.mk (some "t1") cid author body score created none) =
          some (.mk cid author body score created [])) ∧
    (∀ (cid author body : Option String) (score created : Option Int)
        (cs : List CNode), allGenL cs = true →
        ∃ r, parse_comment
            (.mk (some "t1") cid author body score created (some cs)) =
            some r ∧
          r.children.length = cs.length ∧
          rdepth r = cdepth (.mk (some "t1") cid author body score created
            (some cs))) := by
  refine ⟨?_, ?_, ?_, ?_⟩
  · intro kind cid author body score created replies hk
    rw [parse_comment_mk, if_neg hk]
  · intro n ns hn
    rw [parse_children_cons, hn]
  · intro cid author body score created
    rw [parse_comment_mk, if_pos rfl]
  · intro cid author body score created cs hcs
    rcases parseL_allGen cs hcs with ⟨hlen, hdep⟩
    refine ⟨.mk cid author body score created (parse_children cs), ?_, ?_, ?_⟩
    · rw [parse_comment_mk, if_pos rfl]
    · exact hlen
    · rw [rdepth_mk, cdepth_mk, hdep]

/-- Concrete nodes for the C8 witness: a placeholder continuation node and a
genuine node with one genuine child. -/
def moreNode : CNode :=
  .mk (some "more") none none none none none none

def leafNode : CNode :=
  .mk (some "t1") (some "c2") (some "bob") (some "reply text")
    (some 3) (some 1700000000) none

def parentNode : CNode :=
  .mk (some "t1") (some "c1") (some "alice") (some "top text")
    (some 7) (some 1690000000) (some [leafNode])

/-- Witness for C8 at concrete nodes. -/
theorem tree_parsing_correctness_witness :
    parse_comment moreNode = none ∧
    parse_children [moreNode] = parse_children [] ∧
    parse_comment leafNode =
      some (.mk (some "c2") (some "bob") (some "reply text")
        (some 3) (some 1700000000) []) ∧
    (∃ r, parse_comment parentNode = some r ∧
      r.children.length = 1 ∧ rdepth r = cdepth parentNode) := by
  have hgen : allGenL [leafNode] = true := by
    rw [allGenL_cons, allGenL_nil,
      show leafNode = CNode.mk (some "t1") (some "c2") (some "bob")
        (some "reply text") (some 3) (some 1700000000) none from rfl,
      allGen_mk]
    rfl
  refine ⟨?_, ?_, ?_, ?_⟩
  · exact tree_parsing_correctness.1 (some "more") none none none none none none
      (by decide)
  · exact tree_parsing_correctness.2.1 moreNode []
      (tree_parsing_correctness.1 (some "more") none none none none none none
        (by decide))
  · exact tree_parsing_correctness.2.2.1 (some "c2") (some "bob")
      (some "reply text") (some 3) (some 1700000000)
  · exact tree_parsing_correctness.2.2.2 (some "c1") (some "alice")
      (some "top text") (some 7) (some 1690000000) [leafNode] hgen

/-! ## Calendar dates (`datetime.date` as used by `run_reddit_scrapes.py`)

Dates are `(year, month, day)` triples, compared chronologically (Python
compares dates lexicographically on that triple, which is chronological
order).  `timedelta(days = n)` arithmetic is modelled by iterating the
successor/predecessor of a day with real Gregorian month lengths. -/

structure Date where
  y : Nat
  m : Nat
  d : Nat
deriving DecidableEq, Repr

def isLeap (y : Nat) : Bool :=
  (y % 4 == 0 && y % 100 != 0) || y % 400 == 0

def daysInMonth (y m : Nat) : Nat :=
  if m = 2 then (if isLeap y then 29 else 28)
  else if m = 4 ∨ m = 6 ∨ m = 9 ∨ m = 11 then 30
  else 31

def succD (dt : Date) : Date :=
  if dt.d < daysInMonth dt.y dt.m then ⟨dt.y, dt.m, dt.d + 1⟩
  else if dt.m < 12 then ⟨dt.y, dt.m + 1, 1⟩
  else ⟨dt.y + 1, 1, 1⟩

def predD (dt : Date) : Date :=
  if 1 < dt.d then ⟨dt.y, dt.m, dt.d - 1⟩
  else if 1 < dt.m then ⟨dt.y, dt.m - 1, daysInMonth dt.y (dt.m - 1)⟩
  else ⟨dt.y - 1, 12, 31⟩

def addDays : Date → Nat → Date
  | dt, 0 => dt
  | dt, Nat.succ n => addDays (succD dt) n

def subDays : Date → Nat → Date
  | dt, 0 => dt
  | dt, Nat.succ n => subDays (predD dt) n

/-- Python `date` comparison `a < b` (chronological). -/
def dlt (a b : Date) : Bool :=
  decide (a.y < b.y) ||
    (a.y == b.y &&
      (decide (a.m < b.m) || (a.m == b.m && decide (a.d < b.d))))

/-- `a ≤ b` on dates. -/
def dle (a b : Date) : Bool :=
  dlt a b || a == b

/-- Python `min(a, b)`. -/
def dmin (a b : Date) : Date :=
  if dlt a b then a else b

/-- `(current.replace(day=1) + timedelta(days=32)).replace(day=1) -
timedelta(days=1)`: the last day of `current`'s month (line 71). -/
def monthEndOf (cur : Date) : Date :=
  predD ⟨(addDays ⟨cur.y, cur.m, 1⟩ 32).y, (addDays ⟨cur.y, cur.m, 1⟩ 32).m, 1⟩

/-- A calendar-valid date, as every Python `datetime.date` is. -/
def validD (dt : Date) : Prop :=
  1 ≤ dt.m ∧ dt.m ≤ 12 ∧ 1 ≤ dt.d ∧ dt.d ≤ daysInMonth dt.y dt.m

instance (dt : Date) : Decidable (validD dt) := by
  unfold validD
  infer_instance

/-- Chronological rank of a date; strictly monotone in the date order for
valid dates. -/
def toN (dt : Date) : Nat :=
  dt.y * 1000 + dt.m * 50 + dt.d

/-- One calendar month after a date (same day-of-month). -/
def addMonth (dt : Date) : Date :=
  if dt.m < 12 then ⟨dt.y, dt.m + 1, dt.d⟩ else ⟨dt.y + 1, 1, dt.d⟩

theorem daysInMonth_ge (y m : Nat) : 28 ≤ daysInMonth y m := by
  rw [daysInMonth]
  split
  · split <;> omega
  · split <;> omega

theorem daysInMonth_le (y m : Nat) : daysInMonth y m ≤ 31 := by
  rw [daysInMonth]
  split
  · split <;> omega
  · split <;> omega

theorem validD_succD (dt : Date) (h : validD dt) : validD (succD dt) := by
  obtain ⟨h1, h2, h3, h4⟩ := h
  have g1 := daysInMonth_ge dt.y (dt.m + 1)
  have g2 := daysInMonth_ge (dt.y + 1) 1
  rw [succD]
  split
  · rename_i hd
    refine ⟨?_, ?_, ?_, ?_⟩ <;> (dsimp only; omega)
  · split
    · rename_i hm
      refine ⟨?_, ?_, ?_, ?_⟩ <;> (dsimp only; omega)
    · refine ⟨?_, ?_, ?_, ?_⟩ <;> (dsimp only; omega)

theorem toN_succD (dt : Date) (hm : dt.m ≤ 12) (hd : dt.d ≤ 31) :
    toN dt < toN (succD dt) := by
  rw [succD]
  split
  · simp only [toN]
    omega
  · split
    · simp only [toN]
      omega
    · simp only [toN]
      omega

theorem dlt_iff (a b : Date) (ha : validD a) (hb : validD b) :
    (dlt a b = true ↔ toN a < toN b) := by
  obtain ⟨ha1, ha2, ha3, ha4⟩ := ha
  obtain ⟨hb1, hb2, hb3, hb4⟩ := hb
  have had : a.d ≤ 31 := le_trans ha4 (daysInMonth_le a.y a.m)
  have hbd : b.d ≤ 31 := le_trans hb4 (daysInMonth_le b.y b.m)
  simp only [dlt, toN, Bool.or_eq_true, Bool.and_eq_true, decide_eq_true_eq,
    beq_iff_eq]
  omega

theorem date_eq_iff (a b : Date) : a = b ↔ a.y = b.y ∧ a.m = b.m ∧ a.d = b.d := by
  cases a
  cases b
  simp [Date.mk.injEq]

theorem dle_iff (a b : Date) (ha : validD a) (hb : validD b) :
    (dle a b = true ↔ toN a ≤ toN b) := by
  have h1 := dlt_iff a b ha hb
  obtain ⟨ha1, ha2, ha3, ha4⟩ := ha
  obtain ⟨hb1, hb2, hb3, hb4⟩ := hb
  have had : a.d ≤ 31 := le_trans ha4 (daysInMonth_le a.y a.m)
  have hbd : b.d ≤ 31 := le_trans hb4 (daysInMonth_le b.y b.m)
  simp only [dle, Bool.or_eq_true, beq_iff_eq, h1, date_eq_iff]
  simp only [toN] at *
  omega

theorem addDays_add (a : Nat) : ∀ (dt : Date) (b : Nat),
    addDays dt (a + b) = addDays (addDays dt a) b := by
  induction a with
  | zero =>
    intro dt b
    rw [Nat.zero_add]
    rfl
  | succ a ih =>
    intro dt b
    have h : Nat.succ a + b = Nat.succ (a + b) := by omega
    rw [h, addDays, addDays]
    exact ih (succD dt) b

theorem addDays_within (y m : Nat) :
    ∀ (k d : Nat), 1 ≤ d → d + k ≤ daysInMonth y m →
      addDays ⟨y, m, d⟩ k = ⟨y, m, d + k⟩ := by
  intro k
  induction k with
  | zero => intro d _ _; rfl
  | succ k ih =>
    intro d h1 h2
    rw [addDays]
    have hs : succD ⟨y, m, d⟩ = ⟨y, m, d + 1⟩ := by
      rw [succD]
      dsimp only
      rw [if_pos (by omega : d < daysInMonth y m)]
    rw [hs, ih (d + 1) (by omega) (by omega)]
    have h3 : d + 1 + k = d + (k + 1) := by omega
    rw [h3]

theorem monthEnd_eq (y m d0 : Nat) (h1 : 1 ≤ m) (h2 : m ≤ 12) :
    monthEndOf ⟨y, m, d0⟩ = ⟨y, m, daysInMonth y m⟩ := by
  have hge := daysInMonth_ge y m
  have hle := daysInMonth_le y m
  have h1step : addDays ⟨y, m, 1⟩ (daysInMonth y m - 1) =
      ⟨y, m, daysInMonth y m⟩ := by
    rw [addDays_within y m (daysInMonth y m - 1) 1 (by omega) (by omega)]
    rw [show 1 + (daysInMonth y m - 1) = daysInMonth y m from by omega]
  have hsplit : (32 : Nat) = (daysInMonth y m - 1) + (33 - daysInMonth y m) := by
    omega
  by_cases hm : m < 12
  · have hcross : succD ⟨y, m, daysInMonth y m⟩ = ⟨y, m + 1, 1⟩ := by
      rw [succD]
      dsimp only
      rw [if_neg (by omega), if_pos hm]
    have hnext : addDays ⟨y, m + 1, 1⟩ (32 - daysInMonth y m) =
        ⟨y, m + 1, 1 + (32 - daysInMonth y m)⟩ := by
      apply addDays_within y (m + 1) (32 - daysInMonth y m) 1 (by omega)
      have := daysInMonth_ge y (m + 1)
      omega
    have hfull : addDays ⟨y, m, 1⟩ 32 = ⟨y, m + 1, 1 + (32 - daysInMonth y m)⟩ := by
      conv_lhs => rw [hsplit]
      rw [addDays_add, h1step,
        show 33 - daysInMonth y m = Nat.succ (32 - daysInMonth y m) from by omega,
        addDays, hcross, hnext]
    rw [monthEndOf]
    dsimp only
    rw [hfull]
    dsimp only
    rw [predD]
    dsimp only
    rw [if_neg (by omega), if_pos (by omega)]
    rw [show m + 1 - 1 = m from by omega]
  · have hm12 : m = 12 := by omega
    subst hm12
    have h31 : daysInMonth y 12 = 31 := rfl
    have hcross : succD ⟨y, 12, 31⟩ = ⟨y + 1, 1, 1⟩ := by
      rw [succD]
      dsimp only
      rw [if_neg (by rw [h31]; omega), if_neg (by omega)]
    have hfull : addDays ⟨y, 12, 1⟩ 32 = ⟨y + 1, 1, 2⟩ := by
      rw [show (32 : Nat) = 30 + 2 from rfl, addDays_add,
        addDays_within y 12 30 1 (by omega) (by rw [h31]),
        show 1 + 30 = 31 from rfl,
        show (2 : Nat) = Nat.succ 1 from rfl, addDays, hcross,
        addDays_within (y + 1) 1 1 1 (by omega)
          (by have := daysInMonth_ge (y + 1) 1; omega)]
    rw [monthEndOf]
    dsimp only
    rw [hfull]
    dsimp only
    rw [predD]
    dsimp only
    rw [if_neg (by omega), if_neg (by omega)]
    rw [h31, show y + 1 - 1 = y from by omega]

theorem monthEnd_valid (cur : Date) (h : validD cur) : validD (monthEndOf cur) := by
  obtain ⟨h1, h2, h3, h4⟩ := h
  have he : monthEndOf cur = ⟨cur.y, cur.m, daysInMonth cur.y cur.m⟩ := by
    have := monthEnd_eq cur.y cur.m cur.d h1 h2
    simpa using this
  rw [he]
  have := daysInMonth_ge cur.y cur.m
  refine ⟨h1, h2, ?_, ?_⟩ <;> (dsimp only; omega)

theorem toN_le_monthEnd (cur : Date) (h : validD cur) :
    toN cur ≤ toN (monthEndOf cur) := by
  obtain ⟨h1, h2, h3, h4⟩ := h
  have he : monthEndOf cur = ⟨cur.y, cur.m, daysInMonth cur.y cur.m⟩ := by
    have := monthEnd_eq cur.y cur.m cur.d h1 h2
    simpa using this
  rw [he]
  simp only [toN]
  omega

/-- A full-calendar-month chunk advances by exactly one month: the first day
after the last day of the month of `⟨y,m,1⟩` is one calendar month after
`⟨y,m,1⟩`. -/
theorem succD_monthEnd_full_month (y m : Nat) (h1 : 1 ≤ m) (h2 : m ≤ 12) :
    succD (monthEndOf ⟨y, m, 1⟩) = addMonth ⟨y, m, 1⟩ := by
  rw [monthEnd_eq y m 1 h1 h2, succD, addMonth]
  dsimp only
  rw [if_neg (by omega)]

theorem lookupA_cons_ne {α : Type} (q : String × α) (m : List (String × α))
    (j : String) (h : ¬ (q.1 = j)) : lookupA (q :: m) j = lookupA m j := by
  rw [lookupA, lookupA, List.find?_cons]
  simp only [h, decide_False]

theorem lookupA_cons_self {α : Type} (q : String × α) (m : List (String × α))
    (j : String) (h : q.1 = j) : lookupA (q :: m) j = some q.2 := by
  rw [lookupA, List.find?_cons]
  simp only [h, decide_True]
  rfl

theorem lookupA_upsertA_ne {α : Type} (m : List (String × α)) (k j : String)
    (v : α) (h : j ≠ k) : lookupA (upsertA m k v) j = lookupA m j := by
  have hmap : ∀ mm : List (String × α),
      lookupA (mm.map (fun q => if q.1 = k then (k, v) else q)) j = lookupA mm j := by
    intro mm
    induction mm with
    | nil => rfl
    | cons q mm ih =>
      rw [List.map_cons]
      by_cases hq : q.1 = k
      · rw [if_pos hq]
        rw [lookupA_cons_ne (k, v) _ j (fun hh => h hh.symm),
          lookupA_cons_ne q mm j (by rw [hq]; exact fun hh => h hh.symm)]
        exact ih
      · rw [if_neg hq]
        by_cases hqj : q.1 = j
        · rw [lookupA_cons_self q _ j hqj, lookupA_cons_self q mm j hqj]
        · rw [lookupA_cons_ne q _ j hqj, lookupA_cons_ne q mm j hqj]
          exact ih
  rw [upsertA]
  split
  · exact hmap m
  · rw [lookupA, lookupA, List.find?_append]
    have hsing : List.find? (fun q => q.1 = j) [(k, v)] = none := by
      simp
      exact fun hh => h hh.symm
    rw [hsing]
    cases List.find? (fun q => q.1 = j) m <;> rfl

theorem lookupA_upsertA_self {α : Type} (m : List (String × α)) (k : String)
    (v : α) : lookupA (upsertA m k v) k = some v := by
  rw [upsertA]
  split
  · rename_i hc
    rcases (containsKey_iff m k).mp hc with ⟨q0, hq0, hq0k⟩
    clear hc
    induction m with
    | nil => cases hq0
    | cons q m ih =>
      rw [List.map_cons]
      by_cases hq : q.1 = k
      · rw [if_pos hq]
        rw [lookupA_cons_self (k, v) _ k rfl]
      · rw [if_neg hq]
        rw [lookupA_cons_ne q _ k hq]
        rcases List.mem_cons.mp hq0 with rfl | hq0'
        · exact absurd hq0k hq
        · exact ih hq0'
  · rw [lookupA, List.find?_append]
    have hnone : List.find? (fun q => q.1 = k) m = none := by
      rename_i hc
      rw [List.find?_eq_none]
      intro q hq
      simp only [decide_eq_true_eq]
      intro hqk
      exact hc ((containsKey_iff m k).mpr ⟨q, hq, hqk⟩)
    rw [hnone]
    simp [lookupA]

/-! ## Backfill and daily orchestrators (`run_reddit_scrapes.py`)

`run_scraper` (a subprocess running the full crawl + comment fetch +
snapshot + merge for one chunk, line 40–51) is abstracted into an oracle
`ok : flair → since → until → Bool`: `true` means the subprocess exited 0,
`false` that it raised `CalledProcessError`.  The persisted state file
`initial_progress.json` maps each flair to its cursor date (the single fixed
subreddit level of `state[SUBREDDIT][flair]` is flattened away).  The
`while current < end_date` loop is fuel-indexed. -/

def FLAIRS : List String := ["Classes", "Schedule", "Graduation"]

/-- `min((current.replace(day=1)+32d).replace(day=1)-1d, end_date)`. -/
def chunkEnd (endD current : Date) : Date :=
  dmin (monthEndOf current) endD

structure InitOut where
  calls : List (String × Date × Date)
  saves : List (List (String × Date))
  finalState : List (String × Date)
  aborted : Bool
deriving DecidableEq, Repr

/-- The `while current < end_date` loop of `run_initial` for one flair:
run the chunk; on success persist the advanced cursor and continue from
`month_end + 1 day`; on failure persist the unchanged state and abort. -/
def chunkLoop (ok : String → Date → Date → Bool) (flair : String) (endD : Date) :
    Nat → Date → List (String × Date) → InitOut
  | 0, _, st => ⟨[], [], st, false⟩
  | Nat.succ fuel, current, st =>
    if dlt current endD = true then
      if ok flair current (chunkEnd endD current) = true then
        match chunkLoop ok flair endD fuel (succD (chunkEnd endD current))
            (upsertA st flair (succD (chunkEnd endD current))) with
        | ⟨cs, svs, stF, ab⟩ =>
          ⟨(flair, current, chunkEnd endD current) :: cs,
           upsertA st flair (succD (chunkEnd endD current)) :: svs, stF, ab⟩
      else
        ⟨[(flair, current, chunkEnd endD current)], [st], st, true⟩
    else
      ⟨[], [], st, false⟩

/-- The `for flair in FLAIRS` loop of `run_initial`: the cursor for a flair
is its persisted entry, else the start of the three-year window; a failed
chunk aborts the whole run (`return`). -/
def flairLoop (ok : String → Date → Date → Bool) (endD startD : Date)
    (fuel : Nat) : List String → List (String × Date) → InitOut
  | [], st => ⟨[], [], st, false⟩
  | f :: rest, st =>
    match chunkLoop ok f endD fuel ((lookupA st f).getD startD) st with
    | ⟨cs, svs, st1, ab⟩ =>
      if ab then ⟨cs, svs, st1, true⟩
      else
        match flairLoop ok endD startD fuel rest st1 with
        | ⟨cs2, svs2, st2, ab2⟩ => ⟨cs ++ cs2, svs ++ svs2, st2, ab2⟩

/-- `run_initial`: `end_date = utcnow().date()`, `start_date = end_date -
timedelta(days=365*3)`. -/
def run_initial (ok : String → Date → Date → Bool) (today : Date)
    (st : List (String × Date)) (fuel : Nat) : InitOut :=
  flairLoop ok today (subDays today 1095) fuel FLAIRS st

structure DailyOut where
  calls : List (String × Date × Date)
  finalWrite : Option (List (String × String))
deriving DecidableEq, Repr

/-- The `for flair in FLAIRS` loop of `run_daily`: the failing call is still
attempted (it appears in the call list) and then the run returns without
writing the state. -/
def run_daily_go (ok : String → Bool) (sinceD untilD : Date) :
    List String → List (String × Date × Date) × Bool
  | [] => ([], true)
  | f :: rest =>
    if ok f then
      match run_daily_go ok sinceD untilD rest with
      | (cs, b) => ((f, sinceD, untilD) :: cs, b)
    else ([(f, sinceD, untilD)], false)

/-- `run_daily`: the window is always `[today - 3 days, today]`, computed
from the clock alone; `state["last_run"]` is written only after every flair
succeeded. -/
def run_daily (ok : String → Bool) (today : Date) (nowIso : String)
    (st : List (String × String)) : DailyOut :=
  match run_daily_go ok (subDays today 3) today FLAIRS with
  | (cs, allOk) =>
    ⟨cs, if allOk then some (upsertA st "last_run" nowIso) else none⟩

theorem run_daily_go_spec (ok : String → Bool) (sinceD untilD : Date) :
    ∀ fl : List String,
      ((run_daily_go ok sinceD untilD fl).1.map (fun c => c.1) =
        fl.takeWhile ok ++ (fl.dropWhile ok).take 1) ∧
      ((run_daily_go ok sinceD untilD fl).2 = true ↔ ∀ f ∈ fl, ok f = true) ∧
      (∀ c ∈ (run_daily_go ok sinceD untilD fl).1,
        c.2.1 = sinceD ∧ c.2.2 = untilD) := by
  intro fl
  induction fl with
  | nil => exact ⟨rfl, by simp [run_daily_go], by simp [run_daily_go]⟩
  | cons f rest ih =>
    rw [run_daily_go]
    by_cases hf : ok f = true
    · rw [if_pos hf]
      rcases hgo : run_daily_go ok sinceD untilD rest with ⟨cs, b⟩
      rw [hgo] at ih
      dsimp only at ih ⊢
      refine ⟨?_, ?_, ?_⟩
      · rw [List.map_cons, ih.1, List.takeWhile_cons_of_pos hf,
          List.dropWhile_cons_of_pos hf]
        rfl
      · rw [ih.2.1]
        constructor
        · intro h g hg
          rcases List.mem_cons.mp hg with rfl | hg
          · exact hf
          · exact h g hg
        · intro h g hg
          exact h g (List.mem_cons_of_mem _ hg)
      · intro c hc
        rcases List.mem_cons.mp hc with rfl | hc
        · exact ⟨rfl, rfl⟩
        · exact ih.2.2 c hc
    · rw [if_neg hf]
      rw [Bool.not_eq_true] at hf
      refine ⟨?_, ?_, ?_⟩
      · rw [List.takeWhile_cons_of_neg (by simp [hf]),
          List.dropWhile_cons_of_neg (by simp [hf])]
        rfl
      · constructor
        · intro h
          cases h
        · intro h
          exact absurd (h f (List.mem_cons_self _ _)) (by simp [hf])
      · intro c hc
        rcases List.mem_cons.mp hc with rfl | hc
        · exact ⟨rfl, rfl⟩
        · cases hc

/-- Claim C9.  Daily orchestrator: every invocation uses the fixed trailing
window `[today - 3 days, today]`, independent of any persisted state (the
call list does not depend on the loaded state at all); it attempts the
configured category labels in order and stops after the first failing one,
performing no further category runs (progress persisted by earlier
categories lives in their master files and is not touched); and the
`last_run` timestamp is written if and only if every category succeeded in
this invocation. -/
theorem daily_orchestrator (ok : String → Bool) (today : Date)
    (nowIso : String) (st st' : List (String × String)) :
    ((run_daily ok today nowIso st).calls =
      (run_daily ok today nowIso st').calls) ∧
    (∀ c ∈ (run_daily ok today nowIso st).calls,
      c.2.1 = subDays today 3 ∧ c.2.2 = today) ∧
    ((run_daily ok today nowIso st).calls.map (fun c => c.1) =
      FLAIRS.takeWhile ok ++ (FLAIRS.dropWhile ok).take 1) ∧
    ((run_daily ok today nowIso st).finalWrite.isSome = true ↔
      ∀ f ∈ FLAIRS, ok f = true) ∧
    (∀ w, (run_daily ok today nowIso st).finalWrite = some w →
      lookupA w "last_run" = some nowIso) := by
  rcases hgo : run_daily_go ok (subDays today 3) today FLAIRS with ⟨cs, allOk⟩
  have hspec := run_daily_go_spec ok (subDays today 3) today FLAIRS
  rw [hgo] at hspec
  dsimp only at hspec
  have hrd : ∀ s : List (String × String), run_daily ok today nowIso s =
      ⟨cs, if allOk = true then some (upsertA s "last_run" nowIso) else none⟩ := by
    intro s
    rw [run_daily, hgo]
  rw [hrd st, hrd st']
  dsimp only
  refine ⟨rfl, hspec.2.2, hspec.1, ?_, ?_⟩
  · by_cases hall : allOk = true
    · rw [if_pos hall]
      simpa [hall] using hspec.2.1
    · rw [if_neg hall]
      simp only [Option.isSome_none, Bool.false_eq_true, false_iff]
      rw [← hspec.2.1]
      intro hcon
      exact hall hcon
  · intro w hw
    by_cases hall : allOk = true
    · rw [if_pos hall] at hw
      cases hw
      exact lookupA_upsertA_self st "last_run" nowIso
    · rw [if_neg hall] at hw
      cases hw

/-- Concrete oracle for the C9 witness: `Schedule` fails, the rest succeed. -/
def okDaily : String → Bool := fun f => f != "Schedule"

def dayW : Date := ⟨2024, 3, 10⟩

/-- Witness for C9: with `Schedule` failing, the run attempts `Classes` then
`Schedule` only, each on the window `[2024-03-07, 2024-03-10]`, and the
`last_run` timestamp is not written. -/
theorem daily_orchestrator_witness :
    (run_daily okDaily dayW "T1" []).calls =
      (run_daily okDaily dayW "T1" [("last_run", "T0")]).calls ∧
    (run_daily okDaily dayW "T1" []).calls.map (fun c => c.1) =
      ["Classes", "Schedule"] ∧
    ¬ ((run_daily okDaily dayW "T1" []).finalWrite.isSome = true) := by
  have h := daily_orchestrator okDaily dayW "T1" [] [("last_run", "T0")]
  refine ⟨h.1, ?_, ?_⟩
  · rw [h.2.2.1]
    decide
  · intro hs
    have := (h.2.2.2.1).mp hs "Schedule" (by decide)
    exact absurd this (by decide)

/-! ## Backfill cursor discipline (C2) -/

/-- Replaying the run's chunk calls over the initial state: a successful
chunk advances the flair's cursor to the first day after the chunk and
persists the new state; a failed chunk persists the state unchanged. -/
def replayStep (ok : String → Date → Date → Bool)
    (acc : List (String × Date) × List (List (String × Date)))
    (c : String × Date × Date) :
    List (String × Date) × List (List (String × Date)) :=
  if ok c.1 c.2.1 c.2.2 = true then
    (upsertA acc.1 c.1 (succD c.2.2), acc.2 ++ [upsertA acc.1 c.1 (succD c.2.2)])
  else (acc.1, acc.2 ++ [acc.1])

theorem foldl_replay_acc (ok : String → Date → Date → Bool)
    (l : List (String × Date × Date)) :
    ∀ (st : List (String × Date)) (a : List (List (String × Date))),
      l.foldl (replayStep ok) (st, a) =
        ((l.foldl (replayStep ok) (st, [])).1,
          a ++ (l.foldl (replayStep ok) (st, [])).2) := by
  induction l with
  | nil => intro st a; simp
  | cons c l ih =>
    intro st a
    rw [List.foldl_cons, List.foldl_cons]
    by_cases hc : ok c.1 c.2.1 c.2.2 = true
    · rw [show replayStep ok (st, a) c =
          (upsertA st c.1 (succD c.2.2), a ++ [upsertA st c.1 (succD c.2.2)])
          from by rw [replayStep, if_pos hc],
        show replayStep ok (st, []) c =
          (upsertA st c.1 (succD c.2.2), [] ++ [upsertA st c.1 (succD c.2.2)])
          from by rw [replayStep, if_pos hc]]
      rw [ih (upsertA st c.1 (succD c.2.2)) (a ++ [upsertA st c.1 (succD c.2.2)]),
        ih (upsertA st c.1 (succD c.2.2)) ([] ++ [upsertA st c.1 (succD c.2.2)])]
      simp
    · rw [show replayStep ok (st, a) c = (st, a ++ [st])
          from by rw [replayStep, if_neg hc],
        show replayStep ok (st, []) c = (st, [] ++ [st])
          from by rw [replayStep, if_neg hc]]
      rw [ih st (a ++ [st]), ih st ([] ++ [st])]
      simp

theorem chunkLoop_replay (ok : String → Date → Date → Bool) (f : String)
    (endD : Date) : ∀ (fuel : Nat) (current : Date) (st : List (String × Date)),
    ((chunkLoop ok f endD fuel current st).finalState,
      (chunkLoop ok f endD fuel current st).saves) =
      (chunkLoop ok f endD fuel current st).calls.foldl (replayStep ok) (st, []) := by
  intro fuel
  induction fuel with
  | zero => intro current st; rfl
  | succ fuel ih =>
    intro current st
    rw [chunkLoop]
    by_cases hlt : dlt current endD = true
    · rw [if_pos hlt]
      by_cases hok : ok f current (chunkEnd endD current) = true
      · rw [if_pos hok]
        rcases hsub : chunkLoop ok f endD fuel (succD (chunkEnd endD current))
            (upsertA st f (succD (chunkEnd endD current))) with ⟨cs, svs, stF, ab⟩
        have := ih (succD (chunkEnd endD current))
          (upsertA st f (succD (chunkEnd endD current)))
        rw [hsub] at this
        dsimp only at this ⊢
        rw [List.foldl_cons,
          show replayStep ok (st, []) (f, current, chunkEnd endD current) =
            (upsertA st f (succD (chunkEnd endD current)),
              [] ++ [upsertA st f (succD (chunkEnd endD current))])
            from by rw [replayStep, if_pos hok]]
        rw [foldl_replay_acc, ← this]
        simp
      · rw [if_neg hok]
        dsimp only
        rw [List.foldl_cons,
          show replayStep ok (st, []) (f, current, chunkEnd endD current) =
            (st, [] ++ [st]) from by rw [replayStep, if_neg hok]]
        rfl
    · rw [if_neg hlt]
      rfl

theorem flairLoop_replay (ok : String → Date → Date → Bool) (endD startD : Date)
    (fuel : Nat) : ∀ (fl : List String) (st : List (String × Date)),
    ((flairLoop ok endD startD fuel fl st).finalState,
      (flairLoop ok endD startD fuel fl st).saves) =
      (flairLoop ok endD startD fuel fl st).calls.foldl (replayStep ok) (st, []) := by
  intro fl
  induction fl with
  | nil => intro st; rfl
  | cons f rest ih =>
    intro st
    rw [flairLoop]
    rcases hblk : chunkLoop ok f endD fuel ((lookupA st f).getD startD) st
      with ⟨cs, svs, st1, ab⟩
    have hrep := chunkLoop_replay ok f endD fuel ((lookupA st f).getD startD) st
    rw [hblk] at hrep
    dsimp only at hrep
    cases ab
    · dsimp only
      rw [if_neg (by simp)]
      rcases hrec : flairLoop ok endD startD fuel rest st1 with ⟨cs2, svs2, st2, ab2⟩
      have hrep2 := ih st1
      rw [hrec] at hrep2
      dsimp only at hrep2 ⊢
      rw [List.foldl_append, ← hrep, foldl_replay_acc ok cs2 st1 svs, ← hrep2]
    · dsimp only
      rw [if_pos rfl]
      exact hrep

/-- Either every chunk call of the run succeeded and the run did not abort,
or the run aborted and the call list is a succeeded prefix followed by
exactly one failed call (nothing was attempted after the failure). -/
theorem chunkLoop_failfast (ok : String → Date → Date → Bool) (f : String)
    (endD : Date) : ∀ (fuel : Nat) (current : Date) (st : List (String × Date)),
    ((chunkLoop ok f endD fuel current st).aborted = false ∧
      ∀ c ∈ (chunkLoop ok f endD fuel current st).calls,
        ok c.1 c.2.1 c.2.2 = true) ∨
    ((chunkLoop ok f endD fuel current st).aborted = true ∧
      ∃ cs' c₀, (chunkLoop ok f endD fuel current st).calls = cs' ++ [c₀] ∧
        (∀ c ∈ cs', ok c.1 c.2.1 c.2.2 = true) ∧
        ok c₀.1 c₀.2.1 c₀.2.2 = false) := by
  intro fuel
  induction fuel with
  | zero =>
    intro current st
    exact Or.inl ⟨rfl, fun c hc => absurd hc (List.not_mem_nil c)⟩
  | succ fuel ih =>
    intro current st
    rw [chunkLoop]
    by_cases hlt : dlt current endD = true
    · rw [if_pos hlt]
      by_cases hok : ok f current (chunkEnd endD current) = true
      · rw [if_pos hok]
        rcases hsub : chunkLoop ok f endD fuel (succD (chunkEnd endD current))
            (upsertA st f (succD (chunkEnd endD current))) with ⟨cs, svs, stF, ab⟩
        have hih := ih (succD (chunkEnd endD current))
          (upsertA st f (succD (chunkEnd endD current)))
        rw [hsub] at hih
        dsimp only at hih ⊢
        rcases hih with ⟨hab, hall⟩ | ⟨hab, cs', c₀, hcs, hall, hfail⟩
        · left
          refine ⟨hab, fun c hc => ?_⟩
          rcases List.mem_cons.mp hc with rfl | hc
          · exact hok
          · exact hall c hc
        · right
          refine ⟨hab, (f, current, chunkEnd endD current) :: cs', c₀, ?_, ?_, hfail⟩
          · rw [hcs]
            rfl
          · intro c hc
            rcases List.mem_cons.mp hc with rfl | hc
            · exact hok
            · exact hall c hc
      · rw [if_neg hok]
        right
        rw [Bool.not_eq_true] at hok
        exact ⟨rfl, [], (f, current, chunkEnd endD current), rfl,
          fun c hc => absurd hc (List.not_mem_nil c), hok⟩
    · rw [if_neg hlt]
      exact Or.inl ⟨rfl, fun c hc => absurd hc (List.not_mem_nil c)⟩

theorem flairLoop_failfast (ok : String → Date → Date → Bool) (endD startD : Date)
    (fuel : Nat) : ∀ (fl : List String) (st : List (String × Date)),
    ((flairLoop ok endD startD fuel fl st).aborted = false ∧
      ∀ c ∈ (flairLoop ok endD startD fuel fl st).calls,
        ok c.1 c.2.1 c.2.2 = true) ∨
    ((flairLoop ok endD startD fuel fl st).aborted = true ∧
      ∃ cs' c₀, (flairLoop ok endD startD fuel fl st).calls = cs' ++ [c₀] ∧
        (∀ c ∈ cs', ok c.1 c.2.1 c.2.2 = true) ∧
        ok c₀.1 c₀.2.1 c₀.2.2 = false) := by
  intro fl
  induction fl with
  | nil =>
    intro st
    exact Or.inl ⟨rfl, fun c hc => absurd hc (List.not_mem_nil c)⟩
  | cons f rest ih =>
    intro st
    rw [flairLoop]
    rcases hblk : chunkLoop ok f endD fuel ((lookupA st f).getD startD) st
      with ⟨cs, svs, st1, ab⟩
    have hcf := chunkLoop_failfast ok f endD fuel ((lookupA st f).getD startD) st
    rw [hblk] at hcf
    dsimp only at hcf
    cases ab
    · dsimp only
      rw [if_neg (by simp)]
      rcases hcf with ⟨_, hall⟩ | ⟨hab, _⟩
      · rcases hrec : flairLoop ok endD startD fuel rest st1 with ⟨cs2, svs2, st2, ab2⟩
        have hih := ih st1
        rw [hrec] at hih
        dsimp only at hih ⊢
        rcases hih with ⟨hab2, hall2⟩ | ⟨hab2, cs', c₀, hcs, hall2, hfail⟩
        · left
          refine ⟨hab2, fun c hc => ?_⟩
          rcases List.mem_append.mp hc with hc | hc
          · exact hall c hc
          · exact hall2 c hc
        · right
          refine ⟨hab2, cs ++ cs', c₀, ?_, ?_, hfail⟩
          · rw [hcs, List.append_assoc]
          · intro c hc
            rcases List.mem_append.mp hc with hc | hc
            · exact hall c hc
            · exact hall2 c hc
      · cases hab
    · dsimp only
      rw [if_pos rfl]
      rcases hcf with ⟨hab, _⟩ | ⟨_, cs', c₀, hcs, hall, hfail⟩
      · cases hab
      · exact Or.inr ⟨rfl, cs', c₀, hcs, hall, hfail⟩

/-- Claim C2.  Backfill cursor discipline: replaying the run's chunk calls
shows that the persisted cursor for a (subject, category) chunk is advanced
— to the first day after the chunk — and immediately persisted exactly when
that chunk's subprocess (crawl, comment fetch, snapshot write and merge)
succeeded; a failed chunk leaves the cursor unadvanced and persists the
last-known state; and every call before the last one succeeded, i.e. after
the first failure nothing further is attempted — no later chunk and no later
category — and the run aborts. -/
theorem backfill_cursor_discipline (ok : String → Date → Date → Bool)
    (today : Date) (st : List (String × Date)) (fuel : Nat) :
    (((run_initial ok today st fuel).finalState,
        (run_initial ok today st fuel).saves) =
      (run_initial ok today st fuel).calls.foldl (replayStep ok) (st, [])) ∧
    (∀ st' svs (c : String × Date × Date), ok c.1 c.2.1 c.2.2 = true →
      replayStep ok (st', svs) c =
        (upsertA st' c.1 (succD c.2.2), svs ++ [upsertA st' c.1 (succD c.2.2)])) ∧
    (∀ st' svs (c : String × Date × Date), ok c.1 c.2.1 c.2.2 = false →
      replayStep ok (st', svs) c = (st', svs ++ [st'])) ∧
    (∀ c ∈ (run_initial ok today st fuel).calls.dropLast,
      ok c.1 c.2.1 c.2.2 = true) ∧
    ((run_initial ok today st fuel).aborted = true ↔
      ∃ c ∈ (run_initial ok today st fuel).calls, ok c.1 c.2.1 c.2.2 = false) := by
  simp only [run_initial]
  refine ⟨flairLoop_replay ok today (subDays today 1095) fuel FLAIRS st,
    ?_, ?_, ?_, ?_⟩
  · intro st' svs c hc
    rw [replayStep, if_pos hc]
  · intro st' svs c hc
    rw [replayStep, if_neg (by simp [hc])]
  · rcases flairLoop_failfast ok today (subDays today 1095) fuel FLAIRS st
      with ⟨_, hall⟩ | ⟨_, cs', c₀, hcs, hall, _⟩
    · exact fun c hc => hall c (List.dropLast_subset _ hc)
    · rw [hcs, List.dropLast_concat]
      exact hall
  · rcases flairLoop_failfast ok today (subDays today 1095) fuel FLAIRS st
      with ⟨hab, hall⟩ | ⟨hab, cs', c₀, hcs, hall, hfail⟩
    · rw [hab]
      simp only [Bool.false_eq_true, false_iff]
      rintro ⟨c, hc, hcf⟩
      rw [hall c hc] at hcf
      cases hcf
    · rw [hab, hcs]
      simp only [true_iff]
      exact ⟨c₀, List.mem_append_right _ (List.mem_singleton.mpr rfl), hfail⟩

/-- Concrete oracle for the backfill witnesses: `Classes` chunks succeed,
everything else fails. -/
def okCl : String → Date → Date → Bool := fun f _ _ => f == "Classes"

/-- Concrete persisted backfill state: every flair has a cursor. -/
def stBk : List (String × Date) :=
  [("Classes", ⟨2024, 1, 15⟩), ("Schedule", ⟨2024, 3, 9⟩),
   ("Graduation", ⟨2024, 3, 9⟩)]

/-- Witness for C2 at a concrete run: three `Classes` chunks succeed, the
`Schedule` chunk fails and is the last call of the aborted run; a successful
replay step advances the cursor to the day after the chunk and persists it. -/
theorem backfill_cursor_discipline_witness :
    (run_initial okCl dayW stBk 40).aborted = true ∧
    okCl "Classes" ⟨2024, 1, 15⟩ ⟨2024, 1, 31⟩ = true ∧
    replayStep okCl (stBk, []) ("Classes", ⟨2024, 1, 15⟩, ⟨2024, 1, 31⟩) =
      (upsertA stBk "Classes" (succD ⟨2024, 1, 31⟩),
        [upsertA stBk "Classes" (succD ⟨2024, 1, 31⟩)]) := by
  refine ⟨?_, ?_, ?_⟩
  · exact (backfill_cursor_discipline okCl dayW stBk 40).2.2.2.2.mpr
      ⟨("Schedule", ⟨2024, 3, 9⟩, ⟨2024, 3, 10⟩), by decide, by decide⟩
  · exact (backfill_cursor_discipline okCl dayW stBk 40).2.2.2.1
      ("Classes", ⟨2024, 1, 15⟩, ⟨2024, 1, 31⟩) (by decide)
  · have h := (backfill_cursor_discipline okCl dayW stBk 40).2.1 stBk []
      ("Classes", ⟨2024, 1, 15⟩, ⟨2024, 1, 31⟩) (by decide)
    simpa using h

/-! ## Backfill resumption (C7) -/

theorem validD_bounds (a : Date) (h : validD a) : a.m ≤ 12 ∧ a.d ≤ 31 :=
  ⟨h.2.1, le_trans h.2.2.2 (daysInMonth_le a.y a.m)⟩

theorem toN_lt_succD (a : Date) (h : validD a) : toN a < toN (succD a) :=
  toN_succD a (validD_bounds a h).1 (validD_bounds a h).2

theorem chunkEnd_facts (endD current : Date) (hve : validD endD)
    (hvc : validD current) (hlt : dlt current endD = true) :
    validD (chunkEnd endD current) ∧ toN current ≤ toN (chunkEnd endD current) := by
  rw [chunkEnd, dmin]
  split
  · exact ⟨monthEnd_valid current hvc, toN_le_monthEnd current hvc⟩
  · exact ⟨hve, le_of_lt ((dlt_iff current endD hvc hve).mp hlt)⟩

/-- The chunk calls generated for a flair do not depend on the state
accumulator (it only feeds the saves). -/
theorem chunkLoop_calls_st_indep (ok : String → Date → Date → Bool) (f : String)
    (endD : Date) : ∀ (fuel : Nat) (current : Date) (st₁ st₂ : List (String × Date)),
    (chunkLoop ok f endD fuel current st₁).calls =
      (chunkLoop ok f endD fuel current st₂).calls := by
  intro fuel
  induction fuel with
  | zero => intro current st₁ st₂; rfl
  | succ fuel ih =>
    intro current st₁ st₂
    rw [chunkLoop, chunkLoop]
    by_cases hlt : dlt current endD = true
    · rw [if_pos hlt, if_pos hlt]
      by_cases hok : ok f current (chunkEnd endD current) = true
      · rw [if_pos hok, if_pos hok]
        rcases h₁ : chunkLoop ok f endD fuel (succD (chunkEnd endD current))
            (upsertA st₁ f (succD (chunkEnd endD current))) with ⟨cs₁, svs₁, stF₁, ab₁⟩
        rcases h₂ : chunkLoop ok f endD fuel (succD (chunkEnd endD current))
            (upsertA st₂ f (succD (chunkEnd endD current))) with ⟨cs₂, svs₂, stF₂, ab₂⟩
        have := ih (succD (chunkEnd endD current))
          (upsertA st₁ f (succD (chunkEnd endD current)))
          (upsertA st₂ f (succD (chunkEnd endD current)))
        rw [h₁, h₂] at this
        dsimp only at this ⊢
        rw [this]
      · rw [if_neg hok, if_neg hok]
    · rw [if_neg hlt, if_neg hlt]

/-- A flair's chunk loop never touches the cursor of another flair. -/
theorem chunkLoop_state_other (ok : String → Date → Date → Bool) (f : String)
    (endD : Date) (j : String) (hne : j ≠ f) :
    ∀ (fuel : Nat) (current : Date) (st : List (String × Date)),
    lookupA (chunkLoop ok f endD fuel current st).finalState j = lookupA st j := by
  intro fuel
  induction fuel with
  | zero => intro current st; rfl
  | succ fuel ih =>
    intro current st
    rw [chunkLoop]
    by_cases hlt : dlt current endD = true
    · rw [if_pos hlt]
      by_cases hok : ok f current (chunkEnd endD current) = true
      · rw [if_pos hok]
        rcases hsub : chunkLoop ok f endD fuel (succD (chunkEnd endD current))
            (upsertA st f (succD (chunkEnd endD current))) with ⟨cs, svs, stF, ab⟩
        have := ih (succD (chunkEnd endD current))
          (upsertA st f (succD (chunkEnd endD current)))
        rw [hsub] at this
        dsimp only at this ⊢
        rw [this]
        exact lookupA_upsertA_ne st f j (succD (chunkEnd endD current)) hne
      · rw [if_neg hok]
    · rw [if_neg hlt]

/-- Per-flair structure of the chunk sequence: every chunk is tagged with
the flair, spans `[since, min(month_end(since), end_date)]`, starts at or
after the starting cursor, the first chunk starts exactly at the cursor, and
consecutive chunks are adjacent (`next.since = chunk_end + 1 day`) and
strictly ascending. -/
theorem chunkLoop_struct (ok : String → Date → Date → Bool) (f : String)
    (endD : Date) (hve : validD endD) :
    ∀ (fuel : Nat) (current : Date) (st : List (String × Date)), validD current →
      (∀ c ∈ (chunkLoop ok f endD fuel current st).calls,
        c.1 = f ∧ c.2.2 = chunkEnd endD c.2.1 ∧ validD c.2.1 ∧
          dle current c.2.1 = true) ∧
      (∀ c, (chunkLoop ok f endD fuel current st).calls.head? = some c →
        c.2.1 = current) ∧
      List.Chain' (fun a b => b.2.1 = succD a.2.2 ∧ dlt a.2.1 b.2.1 = true)
        (chunkLoop ok f endD fuel current st).calls := by
  intro fuel
  induction fuel with
  | zero =>
    intro current st _
    exact ⟨fun c hc => absurd hc (List.not_mem_nil c),
      fun c hc => Option.noConfusion hc, List.chain'_nil⟩
  | succ fuel ih =>
    intro current st hvc
    rw [chunkLoop]
    by_cases hlt : dlt current endD = true
    · rw [if_pos hlt]
      rcases chunkEnd_facts endD current hve hvc hlt with ⟨hvme, hle_me⟩
      have hvc' : validD (succD (chunkEnd endD current)) := validD_succD _ hvme
      have hlt_succ : toN (chunkEnd endD current) <
          toN (succD (chunkEnd endD current)) := toN_lt_succD _ hvme
      by_cases hok : ok f current (chunkEnd endD current) = true
      · rw [if_pos hok]
        rcases hsub : chunkLoop ok f endD fuel (succD (chunkEnd endD current))
            (upsertA st f (succD (chunkEnd endD current))) with ⟨cs, svs, stF, ab⟩
        have hih := ih (succD (chunkEnd endD current))
          (upsertA st f (succD (chunkEnd endD current))) hvc'
        rw [hsub] at hih
        dsimp only at hih ⊢
        rcases hih with ⟨hall, hhead, hchain⟩
        refine ⟨?_, ?_, ?_⟩
        · intro c hc
          rcases List.mem_cons.mp hc with rfl | hc
          · exact ⟨rfl, rfl, hvc, (dle_iff current current hvc hvc).mpr (le_refl _)⟩
          · rcases hall c hc with ⟨h1, h2, h3, h4⟩
            refine ⟨h1, h2, h3, ?_⟩
            rw [dle_iff current c.2.1 hvc h3]
            have := (dle_iff _ _ hvc' h3).mp h4
            omega
        · intro c hc
          rw [List.head?_cons] at hc
          cases hc
          rfl
        · rw [List.chain'_cons']
          refine ⟨?_, hchain⟩
          intro b hb
          have hb1 := hhead b hb
          have hbmem : b ∈ cs := by
            cases cs with
            | nil => cases hb
            | cons x l =>
              rw [List.head?_cons] at hb
              cases hb
              exact List.mem_cons_self _ _
          rcases hall b hbmem with ⟨_, _, hb3, _⟩
          refine ⟨by rw [hb1], ?_⟩
          rw [dlt_iff current b.2.1 hvc hb3, hb1]
          omega
      · rw [if_neg hok]
        refine ⟨?_, ?_, ?_⟩
        · intro c hc
          rcases List.mem_singleton.mp hc with rfl
          exact ⟨rfl, rfl, hvc, (dle_iff current current hvc hvc).mpr (le_refl _)⟩
        · intro c hc
          rw [List.head?_cons] at hc
          cases hc
          rfl
        · exact List.chain'_singleton _
    · rw [if_neg hlt]
      exact ⟨fun c hc => absurd hc (List.not_mem_nil c),
        fun c hc => Option.noConfusion hc, List.chain'_nil⟩

/-- Every chunk call carries its flair. -/
theorem chunkLoop_calls_flair (ok : String → Date → Date → Bool) (f : String)
    (endD : Date) : ∀ (fuel : Nat) (current : Date) (st : List (String × Date)),
    ∀ c ∈ (chunkLoop ok f endD fuel current st).calls, c.1 = f := by
  intro fuel
  induction fuel with
  | zero => intro current st c hc; cases hc
  | succ fuel ih =>
    intro current st c hc
    rw [chunkLoop] at hc
    by_cases hlt : dlt current endD = true
    · rw [if_pos hlt] at hc
      by_cases hok : ok f current (chunkEnd endD current) = true
      · rw [if_pos hok] at hc
        rcases hsub : chunkLoop ok f endD fuel (succD (chunkEnd endD current))
            (upsertA st f (succD (chunkEnd endD current))) with ⟨cs, svs, stF, ab⟩
        rw [hsub] at hc
        dsimp only at hc
        rcases List.mem_cons.mp hc with rfl | hc
        · rfl
        · have := ih (succD (chunkEnd endD current))
            (upsertA st f (succD (chunkEnd endD current))) c (by rw [hsub]; exact hc)
          exact this
      · rw [if_neg hok] at hc
        rcases List.mem_singleton.mp hc with rfl
        rfl
    · rw [if_neg hlt] at hc
      cases hc

/-- Every call of the flair loop is tagged with one of its flairs. -/
theorem flairLoop_calls_mem (ok : String → Date → Date → Bool)
    (endD startD : Date) (fuel : Nat) :
    ∀ (fl : List String) (st : List (String × Date)),
    ∀ c ∈ (flairLoop ok endD startD fuel fl st).calls, c.1 ∈ fl := by
  intro fl
  induction fl with
  | nil => intro st c hc; cases hc
  | cons g rest ih =>
    intro st c hc
    rw [flairLoop] at hc
    rcases hblk : chunkLoop ok g endD fuel ((lookupA st g).getD startD) st
      with ⟨cs, svs, st1, ab⟩
    rw [hblk] at hc
    have hflair : ∀ x ∈ cs, x.1 = g := by
      intro x hx
      have h := chunkLoop_calls_flair ok g endD fuel ((lookupA st g).getD startD) st
      rw [hblk] at h
      exact h x hx
    cases ab
    · try dsimp only at hc
      rw [if_neg (by simp)] at hc
      rcases hrec : flairLoop ok endD startD fuel rest st1 with ⟨cs2, svs2, st2, ab2⟩
      rw [hrec] at hc
      try dsimp only at hc
      rcases List.mem_append.mp hc with hc | hc
      · rw [hflair c hc]
        exact List.mem_cons_self _ _
      · have := ih st1 c (by rw [hrec]; exact hc)
        exact List.mem_cons_of_mem _ this
    · try dsimp only at hc
      rw [if_pos rfl] at hc
      try dsimp only at hc
      rw [hflair c hc]
      exact List.mem_cons_self _ _

/-- When the month end fits inside the window, the next cursor after the
chunk is exactly one calendar month past the first of that month. -/
theorem chunkEnd_full_month (endD : Date) (y m : Nat) (h1 : 1 ≤ m) (h2 : m ≤ 12)
    (h : dle (monthEndOf ⟨y, m, 1⟩) endD = true) :
    succD (chunkEnd endD ⟨y, m, 1⟩) = addMonth ⟨y, m, 1⟩ := by
  have hsel : chunkEnd endD ⟨y, m, 1⟩ = monthEndOf ⟨y, m, 1⟩ := by
    rw [chunkEnd, dmin]
    simp only [dle, Bool.or_eq_true, beq_iff_eq] at h
    rcases h with h | h
    · rw [if_pos h]
    · rw [← h]
      split <;> rfl
  rw [hsel]
  exact succD_monthEnd_full_month y m h1 h2

/-- Restriction of the whole run to one flair: since the flairs are distinct
and a chunk loop never touches another flair's cursor, the run's calls for a
flair are exactly that flair's chunk walk from its own persisted cursor over
the initial state -- unless an earlier flair aborted the run before this
flair was reached, in which case the flair contributes no calls at all. -/
theorem flairLoop_filter (ok : String → Date → Date → Bool)
    (endD startD : Date) (fuel : Nat) (f : String) :
    ∀ (fl : List String), fl.Nodup → ∀ st : List (String × Date),
      (flairLoop ok endD startD fuel fl st).calls.filter (fun c => c.1 == f) =
        (chunkLoop ok f endD fuel ((lookupA st f).getD startD) st).calls ∨
      (flairLoop ok endD startD fuel fl st).calls.filter (fun c => c.1 == f) =
        [] := by
  intro fl
  induction fl with
  | nil => intro _ st; right; rfl
  | cons g rest ih =>
    intro hnd st
    rw [flairLoop]
    rcases hblk : chunkLoop ok g endD fuel ((lookupA st g).getD startD) st
      with ⟨cs, svs, st1, ab⟩
    have hcs_g : ∀ x ∈ cs, x.1 = g := by
      intro x hx
      have h := chunkLoop_calls_flair ok g endD fuel ((lookupA st g).getD startD) st
      rw [hblk] at h
      exact h x hx
    by_cases hfg : f = g
    · rw [hfg]
      have hfilter_cs : cs.filter (fun c => c.1 == g) = cs := by
        rw [List.filter_eq_self]
        intro a ha
        simp [hcs_g a ha]
      cases ab
      · dsimp only
        rw [if_neg (by simp)]
        rcases hrec : flairLoop ok endD startD fuel rest st1 with ⟨cs2, svs2, st2, ab2⟩
        dsimp only
        rw [List.filter_append, hfilter_cs]
        have hgnot : g ∉ rest := (List.nodup_cons.mp hnd).1
        have hcs2 : cs2.filter (fun c => c.1 == g) = [] := by
          rw [List.filter_eq_nil_iff]
          intro a ha
          have hmem := flairLoop_calls_mem ok endD startD fuel rest st1 a
            (by rw [hrec]; exact ha)
          intro hp
          rw [beq_iff_eq] at hp
          exact hgnot (hp ▸ hmem)
        rw [hcs2, List.append_nil]
        left
        rw [hblk]
      · dsimp only
        rw [if_pos rfl]
        left
        rw [hblk]
        exact hfilter_cs
    · have hfilter_cs : cs.filter (fun c => c.1 == f) = [] := by
        rw [List.filter_eq_nil_iff]
        intro a ha
        intro hp
        rw [beq_iff_eq] at hp
        exact hfg (hp.symm.trans (hcs_g a ha))
      cases ab
      · dsimp only
        rw [if_neg (by simp)]
        rcases hrec : flairLoop ok endD startD fuel rest st1 with ⟨cs2, svs2, st2, ab2⟩
        dsimp only
        rw [List.filter_append, hfilter_cs, List.nil_append]
        have hnd2 : rest.Nodup := (List.nodup_cons.mp hnd).2
        rcases ih hnd2 st1 with hL | hR
        · rw [hrec] at hL
          dsimp only at hL
          left
          rw [hL]
          have hlook : lookupA st1 f = lookupA st f := by
            have h := chunkLoop_state_other ok g endD f hfg fuel
              ((lookupA st g).getD startD) st
            rw [hblk] at h
            exact h
          rw [hlook]
          exact chunkLoop_calls_st_indep ok f endD fuel _ st1 st
        · rw [hrec] at hR
          dsimp only at hR
          right
          exact hR
      · dsimp only
        rw [if_pos rfl]
        right
        exact hfilter_cs

/-- C7 (corrected). Backfill resumption: restricted to one flair, a
restarted run's chunk calls are exactly the chunk walk from that flair's
persisted cursor M (or empty, when an earlier flair aborted first); every
chunk starts at or after M, the first chunk starts exactly at M, consecutive
chunks are adjacent and strictly ascending (oldest first), and a completed
chunk advances the cursor to the day after the chunk's end -- which is
exactly one calendar month only when the chunk covers a full month starting
on day 1; a mid-month cursor or an end-clipped chunk advances by less. -/
theorem backfill_resumption (ok : String → Date → Date → Bool)
    (today : Date) (st : List (String × Date)) (fuel : Nat)
    (f : String) (M : Date)
    (hM : M = (lookupA st f).getD (subDays today 1095))
    (hvt : validD today) (hvM : validD M) :
    ((run_initial ok today st fuel).calls.filter (fun c => c.1 == f) =
        (chunkLoop ok f today fuel M st).calls ∨
      (run_initial ok today st fuel).calls.filter (fun c => c.1 == f) = []) ∧
    (∀ c ∈ (chunkLoop ok f today fuel M st).calls,
      c.1 = f ∧ c.2.2 = chunkEnd today c.2.1 ∧ validD c.2.1 ∧
        dle M c.2.1 = true) ∧
    (∀ c, (chunkLoop ok f today fuel M st).calls.head? = some c →
      c.2.1 = M) ∧
    List.Chain' (fun a b => b.2.1 = succD a.2.2 ∧ dlt a.2.1 b.2.1 = true)
      (chunkLoop ok f today fuel M st).calls ∧
    (∀ y m, 1 ≤ m → m ≤ 12 → dle (monthEndOf ⟨y, m, 1⟩) today = true →
      succD (chunkEnd today ⟨y, m, 1⟩) = addMonth ⟨y, m, 1⟩) := by
  subst hM
  have hstruct := chunkLoop_struct ok f today hvt fuel
    ((lookupA st f).getD (subDays today 1095)) st hvM
  refine ⟨?_, hstruct.1, hstruct.2.1, hstruct.2.2, ?_⟩
  · rw [run_initial]
    exact flairLoop_filter ok today (subDays today 1095) fuel f FLAIRS
      (by decide) st
  · intro y m h1 h2 h
    exact chunkEnd_full_month today y m h1 h2 h

/-- Witness for C7 at a concrete run: the `Classes` cursor is persisted at
2024-01-15, and the run's `Classes` calls are exactly that flair's chunk
walk from the cursor. -/
theorem backfill_resumption_witness :
    (run_initial okCl dayW stBk 40).calls.filter (fun c => c.1 == "Classes") =
      (chunkLoop okCl "Classes" dayW 40 ⟨2024, 1, 15⟩ stBk).calls ∨
    (run_initial okCl dayW stBk 40).calls.filter (fun c => c.1 == "Classes") =
      [] :=
  (backfill_resumption okCl dayW stBk 40 "Classes" ⟨2024, 1, 15⟩
    (by decide) (by decide) (by decide)).1

/-- Counterexample for C7 as claimed: resuming `Classes` from the mid-month
cursor 2024-01-15 succeeds and persists the next cursor 2024-02-01 (the day
after the month end), not `addMonth` of the cursor (2024-02-15): the cursor
does not advance by exactly one month. -/
theorem backfill_resumption_cex :
    (run_initial okCl dayW stBk 40).calls.head? =
      some ("Classes", ⟨2024, 1, 15⟩, ⟨2024, 1, 31⟩) ∧
    okCl "Classes" ⟨2024, 1, 15⟩ ⟨2024, 1, 31⟩ = true ∧
    (run_initial okCl dayW stBk 40).saves.head? =
      some (upsertA stBk "Classes" ⟨2024, 2, 1⟩) ∧
    lookupA (upsertA stBk "Classes" ⟨2024, 2, 1⟩) "Classes" =
      some ⟨2024, 2, 1⟩ ∧
    ¬ (⟨2024, 2, 1⟩ : Date) = addMonth ⟨2024, 1, 15⟩ := by
  decide

end UFCA
